import Mathlib

/-!
# Verification of the Sergamon pixel-font build pipeline core

Shallow embedding of the core of the Sergamon font build pipeline:

* `optimizeGrid` (src/optimize-paths.ts) — the Rectangle Compactor:
  two-phase greedy merge of a boolean pixel grid into rectangles;
* `glyphToPath` (src/glyph-to-path.ts) — the Coordinate Mapper;
* `autoBold` (src/auto-bold.ts) — the weight-derivation transform;
* `buildGlyphs` (src/build-font.ts) — advance-width assignment;
* `validateGlyphs` (src/validate-glyphs.ts) — the Corpus Validator;
* `parseGrid` (src/parse-glyph.ts) — raster text to boolean grid.

Grids are `List (List Bool)` (`grid[row][col]`, row 0 at the top).
JavaScript numbers occurring here are array indices, pixel counts and
font-unit products, all non-negative integers well below 2^53, so they
are embedded as `Nat` (`Int` where the coordinate transform subtracts).
-/

/-- A horizontal span of filled pixels within a single row
(interface `RowSpan` in src/optimize-paths.ts). -/
structure RowSpan where
  x : Nat
  y : Nat
  w : Nat
deriving DecidableEq, Repr

/-- An axis-aligned rectangle of pixels (interface `Rectangle` in
src/types.ts): top-left cell `(x, y)`, extent `(w, h)`. -/
structure Rectangle where
  x : Nat
  y : Nat
  w : Nat
  h : Nat
deriving DecidableEq, Repr, Inhabited

def takeRun : List Bool → Nat
  | true :: rest => takeRun rest + 1
  | _ => 0

def extractFrom (y : Nat) (col : Nat) (l : List Bool) : List RowSpan :=
  match l with
  | [] => []
  | false :: rest => extractFrom y (col + 1) rest
  | true :: rest =>
      let n := takeRun rest + 1
      ⟨col, y, n⟩ :: extractFrom y (col + n) (rest.drop (n - 1))
termination_by l.length
decreasing_by
  all_goals simp [List.length_drop]
  omega

/-- `extractRowSpans(row, rowIndex)`: scan a single row left-to-right and
merge horizontally adjacent filled pixels into `RowSpan`s. -/
def extractRowSpans (row : List Bool) (rowIndex : Nat) : List RowSpan :=
  extractFrom rowIndex 0 row

/-- The `for (let row = 0; ...)` loop of `optimizeGrid`: collect the row
spans of every row, rows in order, `r` the index of the head row. -/
def rowSpansFrom (r : Nat) : List (List Bool) → List RowSpan
  | [] => []
  | row :: rest => extractRowSpans row r ++ rowSpansFrom (r + 1) rest

def groupInsert (key : Nat × Nat) (s : RowSpan) :
    List ((Nat × Nat) × List RowSpan) → List ((Nat × Nat) × List RowSpan)
  | [] => [(key, [s])]
  | (k, g) :: rest =>
      if k = key then (k, g ++ [s]) :: rest else (k, g) :: groupInsert key s rest

/-- The grouping loop of `mergeSpansVertically`, processing spans left to
right into the accumulated `byKey` map. -/
def buildGroupsAux (acc : List ((Nat × Nat) × List RowSpan)) :
    List RowSpan → List ((Nat × Nat) × List RowSpan)
  | [] => acc
  | s :: rest => buildGroupsAux (groupInsert (s.x, s.w) s acc) rest

/-- Group spans by their `(x, w)` key (the `byKey` map of
`mergeSpansVertically`). -/
def buildGroups (spans : List RowSpan) : List ((Nat × Nat) × List RowSpan) :=
  buildGroupsAux [] spans

/-- Insert into a list sorted by ascending `y`. -/
def insertByY (s : RowSpan) : List RowSpan → List RowSpan
  | [] => [s]
  | t :: rest => if s.y ≤ t.y then s :: t :: rest else t :: insertByY s rest

def sortByY : List RowSpan → List RowSpan
  | [] => []
  | s :: rest => insertByY s (sortByY rest)

def mergeRunsGo (cur : Rectangle) : List RowSpan → List Rectangle
  | [] => [cur]
  | s :: rest =>
      if s.y = cur.y + cur.h then mergeRunsGo { cur with h := cur.h + 1 } rest
      else cur :: mergeRunsGo ⟨s.x, s.y, s.w, 1⟩ rest

/-- The outer `while (i < spans.length)` loop of `mergeSpansVertically`
over one sorted group. -/
def mergeGroup : List RowSpan → List Rectangle
  | [] => []
  | s :: rest => mergeRunsGo ⟨s.x, s.y, s.w, 1⟩ rest

def mergeSpansVertically (allSpans : List RowSpan) : List Rectangle :=
  ((buildGroups allSpans).map (fun kg => mergeGroup (sortByY kg.2))).flatten

/-- `optimizeGrid(grid)` (src/optimize-paths.ts): convert a boolean
pixel grid into the merged rectangle list. -/
def optimizeGrid (grid : List (List Bool)) : List Rectangle :=
  let allSpans := rowSpansFrom 0 grid
  if allSpans = [] then [] else mergeSpansVertically allSpans

/-- Cell `(i, j)` (row `i`, column `j`) lies inside rectangle `r`. -/
def rectCovers (r : Rectangle) (i j : Nat) : Prop :=
  r.y ≤ i ∧ i < r.y + r.h ∧ r.x ≤ j ∧ j < r.x + r.w

instance (r : Rectangle) (i j : Nat) : Decidable (rectCovers r i j) := by
  unfold rectCovers; infer_instance

/-- Cell `(i, j)` lies inside row span `s`. -/
def spanCovers (s : RowSpan) (i j : Nat) : Prop :=
  s.y = i ∧ s.x ≤ j ∧ j < s.x + s.w

instance (s : RowSpan) (i j : Nat) : Decidable (spanCovers s i j) := by
  unfold spanCovers; infer_instance

/-- The cell of a (possibly ragged) grid at row `i`, column `j`; `false`
outside the grid. -/
def cellAt (grid : List (List Bool)) (i j : Nat) : Bool :=
  (grid.getD i []).getD j false

/-- Ordering between the spans of a grid in emission order: strictly
later row, or same row with a column gap. -/
def spanOrd (s t : RowSpan) : Prop :=
  s.y < t.y ∨ (s.y = t.y ∧ s.x + s.w ≤ t.x)

/-- All members of a group carry that group's `(x, w)` key. -/
def groupKeyed (kg : (Nat × Nat) × List RowSpan) : Prop :=
  ∀ t ∈ kg.2, t.x = kg.1.1 ∧ t.w = kg.1.2

/-- Two rectangles share no cell. -/
def rectDisjoint (a b : Rectangle) : Prop :=
  ∀ i j, ¬(rectCovers a i j ∧ rectCovers b i j)

/-- Two row spans share no cell. -/
def spanDisjoint (s t : RowSpan) : Prop :=
  ∀ i j, ¬(spanCovers s i j ∧ spanCovers t i j)

/-- One opentype.js path command as produced by `glyphToPath`:
`moveTo`, `lineTo` or `closePath`. -/
inductive PathCmd where
  | move (x y : Int)
  | line (x y : Int)
  | close
deriving DecidableEq, Repr

/-- The body of the `for (const rect of rects)` loop of `glyphToPath`:
the five path commands emitted for one rectangle. -/
def rectSubPath (pixelSize baselineRow : Int) (rect : Rectangle) : List PathCmd :=
  let x0 : Int := rect.x * pixelSize
  let y0 : Int := (baselineRow - rect.y) * pixelSize
  let x1 : Int := (rect.x + rect.w) * pixelSize
  let y1 : Int := (baselineRow - (rect.y + rect.h)) * pixelSize
  [.move x0 y0, .line x1 y0, .line x1 y1, .line x0 y1, .close]

def glyphToPath (rects : List Rectangle) (pixelSize baselineRow : Int) :
    List PathCmd :=
  (rects.map (rectSubPath pixelSize baselineRow)).flatten

def autoBoldRow (orig : List Bool) : List Bool :=
  (List.range orig.length).foldl
    (fun acc col =>
      if orig.getD col false && decide (col + 1 < orig.length) then
        acc.set (col + 1) true
      else acc)
    orig

def autoBold (grid : List (List Bool)) : List (List Bool) :=
  if grid.length = 0 then [] else grid.map autoBoldRow

/-- `parseGrid(gridLines)` (src/parse-glyph.ts): `'X'` maps to `true`,
every other character maps to `false` (`ch === "X"`). -/
def parseGrid (gridLines : List String) : List (List Bool) :=
  gridLines.map (fun line => line.toList.map (fun ch => ch == 'X'))

/-- `weight` field of a glyph header (`"regular" | "bold"`). -/
inductive Weight where
  | regular
  | bold
deriving DecidableEq, Repr, Inhabited

/-- `GlyphHeader` (src/types.ts). -/
structure GlyphHeader where
  label : String
  codepoint : Option Nat
  weight : Weight
  components : Option (List String)
deriving DecidableEq, Repr, Inhabited

/-- `ParsedGlyph` (src/types.ts). -/
structure ParsedGlyph where
  header : GlyphHeader
  grid : List (List Bool)
  filePath : String
  width : Nat
  height : Nat
deriving DecidableEq, Repr, Inhabited

/-- `FontConfigGrid` (src/types.ts). -/
structure FontConfigGrid where
  width : Nat
  height : Nat
  baselineRow : Nat
deriving DecidableEq, Repr, Inhabited

/-- `FontConfigMetrics` (src/types.ts). -/
structure FontConfigMetrics where
  pixelSize : Nat
  ascenderPx : Nat
  descenderPx : Nat
  lineGapPx : Nat
deriving DecidableEq, Repr, Inhabited

/-- `FontConfig` (src/types.ts); the `font` naming block (family name,
designer, …) is not read by any validated component and is omitted. -/
structure FontConfig where
  grid : FontConfigGrid
  metrics : FontConfigMetrics
deriving DecidableEq, Repr, Inhabited

inductive VMessage where
  | gridRows (got expected : Nat)
  | gridWidth (got expected : Nat)
  | rowWidth (row got expected : Nat)
  | invalidChars (row : Nat) (content : String)
  | badCodepoint (cp : Nat)
  | surrogateCodepoint (cp : Nat)
  | duplicateCodepoint (cp : Nat)
  | missingAscii (cp : Nat)
deriving DecidableEq, Repr

/-- `ValidationError` (src/validate-glyphs.ts): a file reference (for
duplicates, the comma-joined list of files) plus a message. -/
structure ValidationError where
  file : String
  message : VMessage
deriving DecidableEq, Repr

/-- The regular expression `/^[.X]+$/` of check 4. -/
def validGridLine (line : String) : Bool :=
  !line.isEmpty && line.toList.all (fun ch => ch == '.' || ch == 'X')

/-- The trailing-empty-line pop after `content.split("\n")`. -/
def popTrailingEmpty (lines : List String) : List String :=
  if lines.getLast? = some "" then lines.dropLast else lines

def checkCharsGo : Bool → Nat → List String → List (Nat × String)
  | _, _, [] => []
  | inGrid, gridRow, line :: rest =>
      if !inGrid && (line.startsWith "#" || line.trim == "") then
        checkCharsGo inGrid gridRow rest
      else if validGridLine line then checkCharsGo true (gridRow + 1) rest
      else (gridRow + 1, line) :: checkCharsGo true (gridRow + 1) rest

/-- Offending grid rows (1-based index and raw content) of one file's
raw lines, as collected by check 4 of `validateGlyphs`. -/
def gridCharErrors (lines : List String) : List (Nat × String) :=
  checkCharsGo false 0 (popTrailingEmpty lines)

/-- Check 3: every row whose length differs from the expected width,
with its 1-based index and actual length, in row order. -/
def rowWidthErrorsGo (expected rowIdx : Nat) : List (List Bool) → List (Nat × Nat)
  | [] => []
  | row :: rest =>
      if row.length ≠ expected then
        (rowIdx + 1, row.length) :: rowWidthErrorsGo expected (rowIdx + 1) rest
      else rowWidthErrorsGo expected (rowIdx + 1) rest

def glyphErrors (cfg : FontConfig) (readFile : String → List String)
    (g : ParsedGlyph) : List ValidationError :=
  (if g.height ≠ cfg.grid.height then
    [⟨g.filePath, .gridRows g.height cfg.grid.height⟩] else [])
  ++ (if g.width ≠ cfg.grid.width then
    [⟨g.filePath, .gridWidth g.width cfg.grid.width⟩] else [])
  ++ (rowWidthErrorsGo cfg.grid.width 0 g.grid).map
    (fun p => ⟨g.filePath, .rowWidth p.1 p.2 cfg.grid.width⟩)
  ++ (gridCharErrors (readFile g.filePath)).map
    (fun p => ⟨g.filePath, .invalidChars p.1 p.2⟩)
  ++ (match g.header.codepoint with
      | none => []
      | some cp =>
          (if 0x10FFFF < cp then [⟨g.filePath, .badCodepoint cp⟩] else [])
          ++ (if 0xD800 ≤ cp ∧ cp ≤ 0xDFFF then
            [⟨g.filePath, .surrogateCodepoint cp⟩] else []))

/-- Insert one glyph into the `codepointOccurrences` map (JavaScript
`Map`, insertion-ordered keys, `push` appends). -/
def occInsert (cp : Nat) (g : ParsedGlyph) :
    List (Nat × List ParsedGlyph) → List (Nat × List ParsedGlyph)
  | [] => [(cp, [g])]
  | (k, l) :: rest =>
      if k = cp then (k, l ++ [g]) :: rest else (k, l) :: occInsert cp g rest

/-- The loop building `codepointOccurrences` over the corpus. -/
def buildOccAux (acc : List (Nat × List ParsedGlyph)) :
    List ParsedGlyph → List (Nat × List ParsedGlyph)
  | [] => acc
  | g :: rest =>
      match g.header.codepoint with
      | some cp => buildOccAux (occInsert cp g acc) rest
      | none => buildOccAux acc rest

/-- `codepointOccurrences`: glyphs grouped by codepoint. -/
def buildOccurrences (glyphs : List ParsedGlyph) : List (Nat × List ParsedGlyph) :=
  buildOccAux [] glyphs

/-- Check 6: one combined error per codepoint occurring in more than one
file, naming all files joined by `", "`. -/
def duplicateErrors (glyphs : List ParsedGlyph) : List ValidationError :=
  (buildOccurrences glyphs).filterMap (fun kl =>
    if 2 ≤ kl.2.length then
      some ⟨String.intercalate ", " (kl.2.map (fun g => g.filePath)),
        .duplicateCodepoint kl.1⟩
    else none)

/-- Check 7: a missing-glyph error for every codepoint of
U+0020–U+007E with no record. -/
def missingAsciiErrors (glyphs : List ParsedGlyph) : List ValidationError :=
  ((List.range' 0x20 95).filter
    (fun cp => !(glyphs.any (fun g => g.header.codepoint == some cp)))).map
    (fun cp => ⟨"glyphs/ascii/", .missingAscii cp⟩)

def validateGlyphs (glyphs : List ParsedGlyph) (cfg : FontConfig)
    (readFile : String → List String) : List ValidationError :=
  (glyphs.map (glyphErrors cfg readFile)).flatten
    ++ duplicateErrors glyphs
    ++ missingAsciiErrors glyphs

structure BuiltGlyph where
  name : String
  unicode : Option Nat
  advanceWidth : Nat
  path : List PathCmd
  ligatureComponents : Option (List Nat)
deriving DecidableEq, Repr, Inhabited

/-- `labelToCodepoint.get(name)` on the label-to-codepoint map. -/
def lookupLabel (labelToCodepoint : List (String × Nat)) (name : String) :
    Option Nat :=
  (labelToCodepoint.find? (fun p => p.1 == name)).map (fun p => p.2)

def resolveComponentCodepoints (components : List String)
    (labelToCodepoint : List (String × Nat)) : Option (List Nat) :=
  components.mapM (lookupLabel labelToCodepoint)

/-- The body of the `for (const pg of parsedGlyphs)` loop of
`buildGlyphs` (src/build-font.ts, ligature-aware revision). -/
def buildOneGlyph (cfg : FontConfig) (labelToCodepoint : List (String × Nat))
    (pg : ParsedGlyph) : BuiltGlyph :=
  let stdAdvanceWidth := cfg.metrics.pixelSize * cfg.grid.width
  let rects := optimizeGrid pg.grid
  let glyphPath :=
    glyphToPath rects (cfg.metrics.pixelSize : Int) (cfg.grid.baselineRow : Int)
  let isLigature := pg.header.components.isSome
  let advanceWidth :=
    if isLigature then cfg.metrics.pixelSize * pg.width else stdAdvanceWidth
  { name := pg.header.label
    unicode := pg.header.codepoint
    advanceWidth := advanceWidth
    path := glyphPath
    ligatureComponents :=
      match pg.header.components with
      | some comps => resolveComponentCodepoints comps labelToCodepoint
      | none => none }

/-- `buildGlyphs(parsedGlyphs, config, labelToCodepoint)`
(src/build-font.ts). -/
def buildGlyphs (parsedGlyphs : List ParsedGlyph) (cfg : FontConfig)
    (labelToCodepoint : List (String × Nat)) : List BuiltGlyph :=
  parsedGlyphs.map (buildOneGlyph cfg labelToCodepoint)

def specRectSubPath (pixelUnit baselineRow : Int) (r : Rectangle) : List PathCmd :=
  [ .move (r.x * pixelUnit) ((baselineRow - r.y) * pixelUnit),
    .line ((r.x + r.w) * pixelUnit) ((baselineRow - r.y) * pixelUnit),
    .line ((r.x + r.w) * pixelUnit) ((baselineRow - (r.y + r.h)) * pixelUnit),
    .line (r.x * pixelUnit) ((baselineRow - (r.y + r.h)) * pixelUnit),
    .close ]

def reconstructGrid (grid : List (List Bool)) (rects : List Rectangle) :
    List (List Bool) :=
  (List.range grid.length).map (fun i =>
    (List.range (grid.getD i []).length).map (fun j =>
      rects.any (fun r => decide (rectCovers r i j))))

/-- The scenario grid of C4: 16 rows × 8 columns, rows 6 and 7 fully
filled, every other row empty. -/
def gridRows67 : List (List Bool) :=
  List.replicate 6 (List.replicate 8 false)
    ++ [List.replicate 8 true, List.replicate 8 true]
    ++ List.replicate 8 (List.replicate 8 false)

instance (s t : RowSpan) : Decidable (spanOrd s t) := by
  unfold spanOrd; infer_instance

/-- The step function of the column loop of `autoBold` for one row. -/
def autoBoldStep (orig : List Bool) (acc : List Bool) (col : Nat) : List Bool :=
  if orig.getD col false && decide (col + 1 < orig.length) then
    acc.set (col + 1) true
  else acc

/-- The scenario grid of C7: 16 rows × 8 columns with a single filled
cell at row 5, column 7 (the rightmost column). -/
def gridCorner57 : List (List Bool) :=
  (List.range 16).map (fun r => (List.range 8).map (fun c => decide (r = 5 ∧ c = 7)))

/-- Concrete grid used to witness C7. -/
def gridW7 : List (List Bool) := [[true, false]]

def pgsW5 : List ParsedGlyph :=
  [⟨⟨"A", some 65, .regular, none⟩, [], "a.glyph", 99, 16⟩,
    ⟨⟨"=>", none, .regular, some ["equal", "greater"]⟩, [], "lig.glyph", 16, 16⟩]

/-- Concrete configuration used by witnesses: 8×16 grid, baseline row
13, pixel size 120. -/
def cfgW : FontConfig := ⟨⟨8, 16, 13⟩, ⟨120, 13, 3, 0⟩⟩

/-- The ligature glyph of C2's counterexample: a two-component ligature
record of grid width 16 (twice the configured base width 8), 16 rows. -/
def ligGlyphW : ParsedGlyph :=
  ⟨⟨"=>", none, .regular, some ["equal", "greater"]⟩,
    List.replicate 16 (List.replicate 16 true), "lig.glyph", 16, 16⟩

/-- Look up the glyph list of one codepoint in the occurrence map. -/
def occLookup (acc : List (Nat × List ParsedGlyph)) (c : Nat) : List ParsedGlyph :=
  match acc.find? (fun kl => kl.1 == c) with
  | some kl => kl.2
  | none => []

/-- The body of the duplicate-error loop: the error emitted for one
occurrence-map entry, when its group has more than one member. -/
def emitDup (kl : Nat × List ParsedGlyph) : Option ValidationError :=
  if 2 ≤ kl.2.length then
    some ⟨String.intercalate ", " (kl.2.map (fun g => g.filePath)),
      .duplicateCodepoint kl.1⟩
  else none

/-- Concrete corpus used to witness C8: two glyphs sharing codepoint
U+0041. -/
def pgsW8 : List ParsedGlyph :=
  [⟨⟨"A", some 65, .regular, none⟩, [[true]], "a.glyph", 1, 1⟩,
    ⟨⟨"A2", some 65, .regular, none⟩, [[true]], "a2.glyph", 1, 1⟩]

-- ── Theorems ───────────────────────────────────────────────────────────────

-- ── Basic lemmas about `takeRun` ────────────────────────────────────────────

theorem takeRun_le_length (l : List Bool) : takeRun l ≤ l.length := by
  induction l with
  | nil => simp [takeRun]
  | cons b rest ih =>
      cases b with
      | false => simp [takeRun]
      | true => simp only [takeRun, List.length_cons]; omega

theorem takeRun_getD_true (l : List Bool) (k : Nat) (hk : k < takeRun l) :
    l.getD k false = true := by
  induction l generalizing k with
  | nil => simp [takeRun] at hk
  | cons b rest ih =>
      cases b with
      | false => simp [takeRun] at hk
      | true =>
          cases k with
          | zero => simp [List.getD]
          | succ k' =>
              simp only [takeRun] at hk
              have : k' < takeRun rest := by omega
              simpa [List.getD] using ih k' this

theorem takeRun_getD_false (l : List Bool) :
    l.getD (takeRun l) false = false := by
  induction l with
  | nil => simp [List.getD]
  | cons b rest ih =>
      cases b with
      | false => simp [takeRun, List.getD]
      | true => simpa [takeRun, List.getD] using ih

-- ── Lemmas about `extractFrom` / `extractRowSpans` ──────────────────────────

theorem extractFrom_cons_true (y col : Nat) (rest : List Bool) :
    extractFrom y col (true :: rest) =
      ⟨col, y, takeRun rest + 1⟩ ::
        extractFrom y (col + (takeRun rest + 1)) (rest.drop (takeRun rest)) := by
  rw [extractFrom]
  simp

theorem extractFrom_covers (y j : Nat) : ∀ (col : Nat) (l : List Bool),
    (∃ s ∈ extractFrom y col l, s.x ≤ j ∧ j < s.x + s.w) ↔
      col ≤ j ∧ l.getD (j - col) false = true := by
  intro col l
  induction col, l using extractFrom.induct y with
  | case1 col => simp [extractFrom, List.getD]
  | case2 col rest ih =>
      rw [extractFrom, ih]
      constructor
      · rintro ⟨hcj, hres⟩
        have hd : j - col = (j - (col + 1)) + 1 := by omega
        exact ⟨by omega, by rw [hd, List.getD_cons_succ]; exact hres⟩
      · rintro ⟨hcj, hres⟩
        by_cases hj : col + 1 ≤ j
        · have hd : j - col = (j - (col + 1)) + 1 := by omega
          rw [hd, List.getD_cons_succ] at hres
          exact ⟨hj, hres⟩
        · have hjc : j = col := by omega
          subst hjc
          simp [List.getD] at hres
  | case3 col rest n ih =>
      have hn : n = takeRun rest + 1 := rfl
      rw [hn] at ih
      simp only [Nat.add_sub_cancel] at ih
      rw [extractFrom_cons_true]
      simp only [List.mem_cons, exists_eq_or_imp]
      rw [ih]
      constructor
      · rintro (⟨hx, hxw⟩ | ⟨hcj, hres⟩)
        · refine ⟨hx, ?_⟩
          rcases Nat.eq_or_lt_of_le hx with h0 | h1
          · subst h0; simp [List.getD]
          · have hd : j - col = (j - col - 1) + 1 := by omega
            rw [hd, List.getD_cons_succ]
            exact takeRun_getD_true rest (j - col - 1) (by omega)
        · have hj1 : col + 1 ≤ j := by omega
          have hd : j - col = (j - col - 1) + 1 := by omega
          rw [hd, List.getD_cons_succ]
          refine ⟨by omega, ?_⟩
          rw [List.getD_eq_getElem?_getD, List.getElem?_drop,
            ← List.getD_eq_getElem?_getD] at hres
          have he : takeRun rest + (j - (col + (takeRun rest + 1))) = j - col - 1 := by
            omega
          rwa [he] at hres
      · rintro ⟨hcj, hres⟩
        by_cases hin : j < col + (takeRun rest + 1)
        · exact Or.inl ⟨hcj, hin⟩
        · refine Or.inr ⟨by omega, ?_⟩
          have hd : j - col = (j - col - 1) + 1 := by omega
          rw [hd, List.getD_cons_succ] at hres
          rw [List.getD_eq_getElem?_getD, List.getElem?_drop,
            ← List.getD_eq_getElem?_getD]
          have he : takeRun rest + (j - (col + (takeRun rest + 1))) = j - col - 1 := by
            omega
          rwa [he]

theorem extractFrom_shape (y : Nat) : ∀ (col : Nat) (l : List Bool),
    ∀ s ∈ extractFrom y col l, s.y = y ∧ 1 ≤ s.w ∧ col ≤ s.x := by
  intro col l
  induction col, l using extractFrom.induct y with
  | case1 col => simp [extractFrom]
  | case2 col rest ih =>
      rw [extractFrom]
      intro s hs
      have := ih s hs
      exact ⟨this.1, this.2.1, by omega⟩
  | case3 col rest n ih =>
      have hn : n = takeRun rest + 1 := rfl
      rw [hn] at ih
      simp only [Nat.add_sub_cancel] at ih
      rw [extractFrom_cons_true]
      intro s hs
      rcases List.mem_cons.mp hs with h | h
      · subst h; exact ⟨rfl, Nat.le_add_left 1 _, le_refl _⟩
      · obtain ⟨h1, h2, h3⟩ := ih s h
        exact ⟨h1, h2, by omega⟩

theorem extractFrom_pairwise (y : Nat) : ∀ (col : Nat) (l : List Bool),
    (extractFrom y col l).Pairwise (fun s t => s.x + s.w ≤ t.x) := by
  intro col l
  induction col, l using extractFrom.induct y with
  | case1 col => simp [extractFrom]
  | case2 col rest ih => rw [extractFrom]; exact ih
  | case3 col rest n ih =>
      have hn : n = takeRun rest + 1 := rfl
      rw [hn] at ih
      simp only [Nat.add_sub_cancel] at ih
      rw [extractFrom_cons_true]
      refine List.Pairwise.cons ?_ ih
      intro t ht
      have := (extractFrom_shape y (col + (takeRun rest + 1))
        (rest.drop (takeRun rest)) t ht).2.2
      simp only
      omega

-- ── Lemmas about `rowSpansFrom` ─────────────────────────────────────────────

theorem rowSpansFrom_shape : ∀ (r : Nat) (rows : List (List Bool)),
    ∀ s ∈ rowSpansFrom r rows, r ≤ s.y ∧ 1 ≤ s.w := by
  intro r rows
  induction rows generalizing r with
  | nil => simp [rowSpansFrom]
  | cons row rest ih =>
      intro s hs
      rcases List.mem_append.mp hs with h | h
      · have := extractFrom_shape r 0 row s h
        exact ⟨le_of_eq this.1.symm, this.2.1⟩
      · have := ih (r + 1) s h
        exact ⟨by omega, this.2⟩

theorem rowSpansFrom_covers (i j : Nat) : ∀ (r : Nat) (rows : List (List Bool)),
    (∃ s ∈ rowSpansFrom r rows, spanCovers s i j) ↔
      r ≤ i ∧ (rows.getD (i - r) []).getD j false = true := by
  intro r rows
  induction rows generalizing r with
  | nil => simp [rowSpansFrom, List.getD]
  | cons row rest ih =>
      simp only [rowSpansFrom, List.mem_append]
      constructor
      · rintro ⟨s, hs | hs, hc⟩
        · have hsy := (extractFrom_shape r 0 row s hs).1
          obtain ⟨hyi, hxj, hjw⟩ := hc
          have hir : i = r := by omega
          subst hir
          have : ∃ s ∈ extractFrom i 0 row, s.x ≤ j ∧ j < s.x + s.w :=
            ⟨s, hs, hxj, hjw⟩
          rw [extractFrom_covers] at this
          simpa [List.getD] using this.2
        · have := (ih (r + 1)).mp ⟨s, hs, hc⟩
          refine ⟨by omega, ?_⟩
          have hd : i - r = (i - (r + 1)) + 1 := by omega
          rw [hd, List.getD_cons_succ]
          exact this.2
      · rintro ⟨hri, hres⟩
        by_cases hir : i = r
        · subst hir
          simp only [Nat.sub_self, List.getD_cons_zero] at hres
          have : 0 ≤ j ∧ row.getD (j - 0) false = true := ⟨Nat.zero_le _, by simpa using hres⟩
          rw [← extractFrom_covers i] at this
          obtain ⟨s, hs, hxj, hjw⟩ := this
          exact ⟨s, Or.inl hs, (extractFrom_shape i 0 row s hs).1, hxj, hjw⟩
        · have hd : i - r = (i - (r + 1)) + 1 := by omega
          rw [hd, List.getD_cons_succ] at hres
          obtain ⟨s, hs, hc⟩ := (ih (r + 1)).mpr ⟨by omega, hres⟩
          exact ⟨s, Or.inr hs, hc⟩

theorem rowSpansFrom_pairwise : ∀ (r : Nat) (rows : List (List Bool)),
    (rowSpansFrom r rows).Pairwise spanOrd := by
  intro r rows
  induction rows generalizing r with
  | nil => simp [rowSpansFrom]
  | cons row rest ih =>
      rw [rowSpansFrom, List.pairwise_append]
      refine ⟨?_, ih (r + 1), ?_⟩
      · refine List.Pairwise.imp_of_mem ?_ (extractFrom_pairwise r 0 row)
        intro s t hs ht hst
        have h1 := (extractFrom_shape r 0 row s hs).1
        have h2 := (extractFrom_shape r 0 row t ht).1
        exact Or.inr ⟨h1.trans h2.symm, hst⟩
      · intro s hs t ht
        have h1 := (extractFrom_shape r 0 row s hs).1
        have h2 := (rowSpansFrom_shape (r + 1) rest t ht).1
        exact Or.inl (by omega)

-- ── Lemmas about the `(x, w)` grouping ──────────────────────────────────────

theorem groupInsert_mem (key : Nat × Nat) (s t : RowSpan) :
    ∀ acc : List ((Nat × Nat) × List RowSpan),
    (∃ kg ∈ groupInsert key s acc, t ∈ kg.2) ↔
      (∃ kg ∈ acc, t ∈ kg.2) ∨ t = s := by
  intro acc
  induction acc with
  | nil => simp [groupInsert]
  | cons kg0 rest ih =>
      obtain ⟨k, g⟩ := kg0
      by_cases hk : k = key
      · simp only [groupInsert, if_pos hk, List.mem_cons]
        constructor
        · rintro ⟨kg, h | h, hm⟩
          · subst h
            rcases List.mem_append.mp hm with h2 | h2
            · exact Or.inl ⟨(k, g), Or.inl rfl, h2⟩
            · exact Or.inr (List.mem_singleton.mp h2)
          · exact Or.inl ⟨kg, Or.inr h, hm⟩
        · rintro (⟨kg, h | h, hm⟩ | h)
          · subst h
            exact ⟨(k, g ++ [s]), Or.inl rfl, List.mem_append.mpr (Or.inl hm)⟩
          · exact ⟨kg, Or.inr h, hm⟩
          · exact ⟨(k, g ++ [s]), Or.inl rfl, by simp [h]⟩
      · simp only [groupInsert, if_neg hk, List.mem_cons]
        constructor
        · rintro ⟨kg, h | h, hm⟩
          · exact Or.inl ⟨kg, Or.inl h, hm⟩
          · rcases ih.mp ⟨kg, h, hm⟩ with h2 | h2
            · obtain ⟨kg2, h3, h4⟩ := h2
              exact Or.inl ⟨kg2, Or.inr h3, h4⟩
            · exact Or.inr h2
        · rintro (⟨kg, h | h, hm⟩ | h)
          · exact ⟨kg, Or.inl h, hm⟩
          · obtain ⟨kg2, h3, h4⟩ := ih.mpr (Or.inl ⟨kg, h, hm⟩)
            exact ⟨kg2, Or.inr h3, h4⟩
          · obtain ⟨kg2, h3, h4⟩ := ih.mpr (Or.inr h)
            exact ⟨kg2, Or.inr h3, h4⟩

theorem buildGroupsAux_mem (t : RowSpan) :
    ∀ (L : List RowSpan) (acc : List ((Nat × Nat) × List RowSpan)),
    (∃ kg ∈ buildGroupsAux acc L, t ∈ kg.2) ↔
      (∃ kg ∈ acc, t ∈ kg.2) ∨ t ∈ L := by
  intro L
  induction L with
  | nil => intro acc; simp [buildGroupsAux]
  | cons s rest ih =>
      intro acc
      rw [buildGroupsAux, ih, groupInsert_mem]
      simp only [List.mem_cons]
      exact or_assoc

theorem buildGroups_mem (t : RowSpan) (L : List RowSpan) :
    (∃ kg ∈ buildGroups L, t ∈ kg.2) ↔ t ∈ L := by
  rw [buildGroups, buildGroupsAux_mem]
  simp

theorem groupInsert_keyed (s : RowSpan) :
    ∀ acc : List ((Nat × Nat) × List RowSpan),
    (∀ kg ∈ acc, groupKeyed kg) →
    ∀ kg ∈ groupInsert (s.x, s.w) s acc, groupKeyed kg := by
  intro acc
  induction acc with
  | nil =>
      intro _ kg hkg
      simp only [groupInsert, List.mem_singleton] at hkg
      subst hkg
      intro t ht
      simp only [List.mem_singleton] at ht
      subst ht
      exact ⟨rfl, rfl⟩
  | cons kg0 rest ih =>
      obtain ⟨k, g⟩ := kg0
      intro hacc kg hkg
      by_cases hk : k = (s.x, s.w)
      · rw [groupInsert, if_pos hk] at hkg
        rcases List.mem_cons.mp hkg with h | h
        · subst h
          intro t ht
          rcases List.mem_append.mp ht with h2 | h2
          · exact hacc (k, g) (List.mem_cons_self _ _) t h2
          · rw [List.mem_singleton.mp h2, hk]
            exact ⟨rfl, rfl⟩
        · exact hacc kg (List.mem_cons_of_mem _ h)
      · rw [groupInsert, if_neg hk] at hkg
        rcases List.mem_cons.mp hkg with h | h
        · subst h
          exact hacc (k, g) (List.mem_cons_self _ _)
        · exact ih (fun kg2 h2 => hacc kg2 (List.mem_cons_of_mem _ h2)) kg h

theorem buildGroupsAux_keyed :
    ∀ (L : List RowSpan) (acc : List ((Nat × Nat) × List RowSpan)),
    (∀ kg ∈ acc, groupKeyed kg) →
    ∀ kg ∈ buildGroupsAux acc L, groupKeyed kg := by
  intro L
  induction L with
  | nil => intro acc hacc; exact hacc
  | cons s rest ih =>
      intro acc hacc
      rw [buildGroupsAux]
      exact ih _ (groupInsert_keyed s acc hacc)

theorem buildGroups_keyed (L : List RowSpan) :
    ∀ kg ∈ buildGroups L, groupKeyed kg :=
  buildGroupsAux_keyed L [] (by simp)

theorem groupInsert_key_mem (key : Nat × Nat) (s : RowSpan) :
    ∀ acc : List ((Nat × Nat) × List RowSpan),
    ∀ kg ∈ groupInsert key s acc, kg.1 = key ∨ kg.1 ∈ acc.map Prod.fst := by
  intro acc
  induction acc with
  | nil => simp [groupInsert]
  | cons kg0 rest ih =>
      obtain ⟨k, g⟩ := kg0
      intro kg hkg
      by_cases hk : k = key
      · rw [groupInsert, if_pos hk] at hkg
        rcases List.mem_cons.mp hkg with h | h
        · subst h; exact Or.inl hk
        · exact Or.inr (List.mem_map.mpr ⟨kg, List.mem_cons_of_mem _ h, rfl⟩)
      · rw [groupInsert, if_neg hk] at hkg
        rcases List.mem_cons.mp hkg with h | h
        · subst h; simp
        · rcases ih kg h with h2 | h2
          · exact Or.inl h2
          · simp only [List.map_cons, List.mem_cons]
            exact Or.inr (Or.inr h2)

theorem groupInsert_keys_distinct (key : Nat × Nat) (s : RowSpan) :
    ∀ acc : List ((Nat × Nat) × List RowSpan),
    acc.Pairwise (fun a b => a.1 ≠ b.1) →
    (groupInsert key s acc).Pairwise (fun a b => a.1 ≠ b.1) := by
  intro acc
  induction acc with
  | nil => intro _; simp [groupInsert]
  | cons kg0 rest ih =>
      obtain ⟨k, g⟩ := kg0
      intro hacc
      rw [List.pairwise_cons] at hacc
      by_cases hk : k = key
      · rw [groupInsert, if_pos hk]
        exact List.Pairwise.cons hacc.1 hacc.2
      · rw [groupInsert, if_neg hk]
        refine List.Pairwise.cons ?_ (ih hacc.2)
        intro kg hkg
        rcases groupInsert_key_mem key s rest kg hkg with h | h
        · rw [h]; exact hk
        · obtain ⟨kg2, hm, he⟩ := List.mem_map.mp h
          rw [← he]
          exact hacc.1 kg2 hm

theorem buildGroupsAux_keys_distinct :
    ∀ (L : List RowSpan) (acc : List ((Nat × Nat) × List RowSpan)),
    acc.Pairwise (fun a b => a.1 ≠ b.1) →
    (buildGroupsAux acc L).Pairwise (fun a b => a.1 ≠ b.1) := by
  intro L
  induction L with
  | nil => intro acc hacc; exact hacc
  | cons s rest ih =>
      intro acc hacc
      rw [buildGroupsAux]
      exact ih _ (groupInsert_keys_distinct _ s acc hacc)

theorem buildGroups_keys_distinct (L : List RowSpan) :
    (buildGroups L).Pairwise (fun a b => a.1 ≠ b.1) :=
  buildGroupsAux_keys_distinct L [] (by simp)

theorem groupInsert_pairwise (R : RowSpan → RowSpan → Prop) (key : Nat × Nat)
    (s : RowSpan) :
    ∀ acc : List ((Nat × Nat) × List RowSpan),
    (∀ kg ∈ acc, kg.2.Pairwise R) →
    (∀ kg ∈ acc, ∀ t ∈ kg.2, R t s) →
    ∀ kg ∈ groupInsert key s acc, kg.2.Pairwise R := by
  intro acc
  induction acc with
  | nil =>
      intro _ _ kg hkg
      simp only [groupInsert, List.mem_singleton] at hkg
      subst hkg
      simp
  | cons kg0 rest ih =>
      obtain ⟨k, g⟩ := kg0
      intro hpw hcross kg hkg
      by_cases hk : k = key
      · rw [groupInsert, if_pos hk] at hkg
        rcases List.mem_cons.mp hkg with h | h
        · subst h
          rw [List.pairwise_append]
          refine ⟨hpw (k, g) (List.mem_cons_self _ _), by simp, ?_⟩
          intro t ht u hu
          rw [List.mem_singleton.mp hu]
          exact hcross (k, g) (List.mem_cons_self _ _) t ht
        · exact hpw kg (List.mem_cons_of_mem _ h)
      · rw [groupInsert, if_neg hk] at hkg
        rcases List.mem_cons.mp hkg with h | h
        · subst h
          exact hpw (k, g) (List.mem_cons_self _ _)
        · exact ih (fun kg2 h2 => hpw kg2 (List.mem_cons_of_mem _ h2))
            (fun kg2 h2 => hcross kg2 (List.mem_cons_of_mem _ h2)) kg h

theorem buildGroupsAux_pairwise (R : RowSpan → RowSpan → Prop) :
    ∀ (L : List RowSpan) (acc : List ((Nat × Nat) × List RowSpan)),
    L.Pairwise R →
    (∀ kg ∈ acc, kg.2.Pairwise R) →
    (∀ kg ∈ acc, ∀ t ∈ kg.2, ∀ u ∈ L, R t u) →
    ∀ kg ∈ buildGroupsAux acc L, kg.2.Pairwise R := by
  intro L
  induction L with
  | nil => intro acc _ hpw _; exact hpw
  | cons s rest ih =>
      intro acc hL hpw hcross
      rw [buildGroupsAux]
      rw [List.pairwise_cons] at hL
      refine ih _ hL.2 ?_ ?_
      · exact groupInsert_pairwise R (s.x, s.w) s acc hpw
          (fun kg hkg t ht => hcross kg hkg t ht s (List.mem_cons_self _ _))
      · intro kg hkg t ht u hu
        rcases (groupInsert_mem (s.x, s.w) s t acc).mp ⟨kg, hkg, ht⟩ with h | h
        · obtain ⟨kg2, h2, h3⟩ := h
          exact hcross kg2 h2 t h3 u (List.mem_cons_of_mem _ hu)
        · subst h
          exact hL.1 u hu

theorem buildGroups_pairwise (R : RowSpan → RowSpan → Prop) (L : List RowSpan)
    (hL : L.Pairwise R) :
    ∀ kg ∈ buildGroups L, kg.2.Pairwise R :=
  buildGroupsAux_pairwise R L [] hL (by simp) (by simp)

theorem buildGroupsAux_key_mem (t : RowSpan) :
    ∀ (L : List RowSpan) (acc : List ((Nat × Nat) × List RowSpan)),
    (∀ kg ∈ acc, groupKeyed kg) →
    acc.Pairwise (fun a b => a.1 ≠ b.1) →
    ((∃ kg ∈ acc, t ∈ kg.2) ∨ t ∈ L) →
    ∀ kg ∈ buildGroupsAux acc L, kg.1 = (t.x, t.w) → t ∈ kg.2 := by
  intro L
  induction L with
  | nil =>
      intro acc hkeyed hdist hmem kg hkg hkey
      rcases hmem with ⟨kg2, h2, h3⟩ | h
      · have hk2 : kg2.1 = (t.x, t.w) := by
          obtain ⟨hx, hw⟩ := hkeyed kg2 h2 t h3
          exact Prod.ext hx.symm hw.symm
        by_cases he : kg = kg2
        · subst he; exact h3
        · exfalso
          have hsymm : Symmetric (fun a b : (Nat × Nat) × List RowSpan => a.1 ≠ b.1) :=
            fun a b hab => hab.symm
          exact hdist.forall hsymm hkg h2 he (hkey.trans hk2.symm)
      · simp at h
  | cons s rest ih =>
      intro acc hkeyed hdist hmem kg hkg hkey
      rw [buildGroupsAux] at hkg
      by_cases hts : t = s
      · refine ih _ (groupInsert_keyed s acc hkeyed)
          (groupInsert_keys_distinct _ s acc hdist) ?_ kg hkg hkey
        subst hts
        exact Or.inl ((groupInsert_mem (t.x, t.w) t t acc).mpr (Or.inr rfl))
      · refine ih _ (groupInsert_keyed s acc hkeyed)
          (groupInsert_keys_distinct _ s acc hdist) ?_ kg hkg hkey
        rcases hmem with ⟨kg2, h2, h3⟩ | h
        · exact Or.inl ((groupInsert_mem (s.x, s.w) s t acc).mpr
            (Or.inl ⟨kg2, h2, h3⟩))
        · rcases List.mem_cons.mp h with h4 | h4
          · exact absurd h4 hts
          · exact Or.inr h4

theorem buildGroups_key_mem (t : RowSpan) (L : List RowSpan) (ht : t ∈ L) :
    ∀ kg ∈ buildGroups L, kg.1 = (t.x, t.w) → t ∈ kg.2 :=
  buildGroupsAux_key_mem t L [] (by simp) (by simp) (Or.inr ht)

-- ── The sort of one group is the identity on already-sorted groups ──────────

theorem insertByY_of_le (s : RowSpan) (l : List RowSpan)
    (h : ∀ t ∈ l, s.y ≤ t.y) : insertByY s l = s :: l := by
  cases l with
  | nil => rfl
  | cons t rest =>
      rw [insertByY, if_pos (h t (List.mem_cons_self _ _))]

theorem sortByY_of_sorted (l : List RowSpan)
    (h : l.Pairwise (fun a b => a.y ≤ b.y)) : sortByY l = l := by
  induction l with
  | nil => rfl
  | cons s rest ih =>
      rw [List.pairwise_cons] at h
      rw [sortByY, ih h.2, insertByY_of_le s rest h.1]

theorem rectCovers_mk (x y w h i j : Nat) :
    rectCovers ⟨x, y, w, h⟩ i j ↔ y ≤ i ∧ i < y + h ∧ x ≤ j ∧ j < x + w :=
  Iff.rfl

theorem spanOrd_disjoint (s t : RowSpan) (h : spanOrd s t) : spanDisjoint s t := by
  intro i j ⟨⟨hy1, hx1, hw1⟩, ⟨hy2, hx2, hw2⟩⟩
  rcases h with h | ⟨h1, h2⟩
  · omega
  · omega

theorem mergeRunsGo_xw : ∀ (rest : List RowSpan) (cur : Rectangle),
    (∀ s ∈ rest, s.x = cur.x ∧ s.w = cur.w) →
    ∀ r ∈ mergeRunsGo cur rest, r.x = cur.x ∧ r.w = cur.w := by
  intro rest
  induction rest with
  | nil =>
      intro cur _ r hr
      rw [List.mem_singleton.mp hr]
      exact ⟨rfl, rfl⟩
  | cons s rest ih =>
      intro cur hkey r hr
      have hs := hkey s (List.mem_cons_self _ _)
      rw [mergeRunsGo] at hr
      by_cases hy : s.y = cur.y + cur.h
      · rw [if_pos hy] at hr
        exact ih { cur with h := cur.h + 1 }
          (fun t ht => hkey t (List.mem_cons_of_mem _ ht)) r hr
      · rw [if_neg hy] at hr
        rcases List.mem_cons.mp hr with h | h
        · subst h; exact ⟨rfl, rfl⟩
        · have := ih ⟨s.x, s.y, s.w, 1⟩
            (fun t ht => by
              have h2 := hkey t (List.mem_cons_of_mem _ ht)
              exact ⟨h2.1.trans hs.1.symm, h2.2.trans hs.2.symm⟩) r h
          exact ⟨this.1.trans hs.1, this.2.trans hs.2⟩

theorem mergeRunsGo_h_pos : ∀ (rest : List RowSpan) (cur : Rectangle),
    1 ≤ cur.h → ∀ r ∈ mergeRunsGo cur rest, 1 ≤ r.h := by
  intro rest
  induction rest with
  | nil =>
      intro cur hc r hr
      rw [List.mem_singleton.mp hr]
      exact hc
  | cons s rest ih =>
      intro cur hc r hr
      rw [mergeRunsGo] at hr
      by_cases hy : s.y = cur.y + cur.h
      · rw [if_pos hy] at hr
        exact ih { cur with h := cur.h + 1 } (Nat.le_add_left 1 _) r hr
      · rw [if_neg hy] at hr
        rcases List.mem_cons.mp hr with h | h
        · subst h; exact hc
        · exact ih ⟨s.x, s.y, s.w, 1⟩ (le_refl 1) r h

theorem mergeRunsGo_covers (i j : Nat) : ∀ (rest : List RowSpan) (cur : Rectangle),
    (∀ s ∈ rest, s.x = cur.x ∧ s.w = cur.w) →
    ((∃ r ∈ mergeRunsGo cur rest, rectCovers r i j) ↔
      (rectCovers cur i j ∨ ∃ s ∈ rest, spanCovers s i j)) := by
  intro rest
  induction rest with
  | nil => intro cur _; simp [mergeRunsGo]
  | cons s rest ih =>
      intro cur hkey
      have hs := hkey s (List.mem_cons_self _ _)
      obtain ⟨hsx, hsw⟩ := hs
      rw [mergeRunsGo]
      simp only [List.mem_cons, exists_eq_or_imp]
      by_cases hy : s.y = cur.y + cur.h
      · rw [if_pos hy]
        rw [ih ⟨cur.x, cur.y, cur.w, cur.h + 1⟩
          (fun t ht => hkey t (List.mem_cons_of_mem _ ht))]
        have hiff : rectCovers ⟨cur.x, cur.y, cur.w, cur.h + 1⟩ i j ↔
            (rectCovers cur i j ∨ spanCovers s i j) := by
          rw [rectCovers_mk]
          unfold rectCovers spanCovers
          omega
        rw [hiff, or_assoc]
      · rw [if_neg hy]
        simp only [List.mem_cons, exists_eq_or_imp]
        rw [ih ⟨s.x, s.y, s.w, 1⟩
          (fun t ht => by
            have h2 := hkey t (List.mem_cons_of_mem _ ht)
            exact ⟨h2.1.trans hsx.symm, h2.2.trans hsw.symm⟩)]
        have hiff : rectCovers ⟨s.x, s.y, s.w, 1⟩ i j ↔ spanCovers s i j := by
          rw [rectCovers_mk]
          unfold spanCovers
          omega
        rw [hiff]

theorem mergeRunsGo_disjoint : ∀ (rest : List RowSpan) (cur : Rectangle),
    rest.Pairwise (fun a b => a.y < b.y) →
    (∀ s ∈ rest, cur.y + cur.h ≤ s.y) →
    (∀ s ∈ rest, s.x = cur.x ∧ s.w = cur.w) →
    (mergeRunsGo cur rest).Pairwise rectDisjoint := by
  intro rest
  induction rest with
  | nil => intro cur _ _ _; simp [mergeRunsGo]
  | cons s rest ih =>
      intro cur hsort hge hkey
      have hs := hkey s (List.mem_cons_self _ _)
      obtain ⟨hsx, hsw⟩ := hs
      have hges := hge s (List.mem_cons_self _ _)
      rw [List.pairwise_cons] at hsort
      rw [mergeRunsGo]
      by_cases hy : s.y = cur.y + cur.h
      · rw [if_pos hy]
        refine ih ⟨cur.x, cur.y, cur.w, cur.h + 1⟩ hsort.2 ?_
          (fun t ht => hkey t (List.mem_cons_of_mem _ ht))
        intro t ht
        have := hsort.1 t ht
        show cur.y + (cur.h + 1) ≤ t.y
        omega
      · rw [if_neg hy]
        have hkey2 : ∀ t ∈ rest, t.x = s.x ∧ t.w = s.w := fun t ht => by
          have h2 := hkey t (List.mem_cons_of_mem _ ht)
          exact ⟨h2.1.trans hsx.symm, h2.2.trans hsw.symm⟩
        refine List.Pairwise.cons ?_ ?_
        · intro r hr i j hco
          obtain ⟨hc1, hc2⟩ := hco
          have hcov := (mergeRunsGo_covers i j rest ⟨s.x, s.y, s.w, 1⟩ hkey2).mp
            ⟨r, hr, hc2⟩
          obtain ⟨d1, d2, d3, d4⟩ := hc1
          rcases hcov with hcv | ⟨t, htm, e1, e2, e3⟩
          · rw [rectCovers_mk] at hcv
            omega
          · have hget := hge t (List.mem_cons_of_mem _ htm)
            omega
        · refine ih ⟨s.x, s.y, s.w, 1⟩ hsort.2 ?_ hkey2
          intro t ht
          have := hsort.1 t ht
          show s.y + 1 ≤ t.y
          omega

theorem mergeGroup_covers (i j X W : Nat) (g : List RowSpan)
    (hkey : ∀ s ∈ g, s.x = X ∧ s.w = W) :
    (∃ r ∈ mergeGroup g, rectCovers r i j) ↔ ∃ s ∈ g, spanCovers s i j := by
  cases g with
  | nil => simp [mergeGroup]
  | cons s rest =>
      obtain ⟨hsx, hsw⟩ := hkey s (List.mem_cons_self _ _)
      rw [mergeGroup]
      rw [mergeRunsGo_covers i j rest ⟨s.x, s.y, s.w, 1⟩ (fun t ht => by
        obtain ⟨h1, h2⟩ := hkey t (List.mem_cons_of_mem _ ht)
        exact ⟨h1.trans hsx.symm, h2.trans hsw.symm⟩)]
      simp only [List.mem_cons, exists_eq_or_imp]
      have hiff : rectCovers ⟨s.x, s.y, s.w, 1⟩ i j ↔ spanCovers s i j := by
        rw [rectCovers_mk]
        unfold spanCovers
        omega
      rw [hiff]

theorem mergeGroup_disjoint (X W : Nat) (g : List RowSpan)
    (hsort : g.Pairwise (fun a b => a.y < b.y))
    (hkey : ∀ s ∈ g, s.x = X ∧ s.w = W) :
    (mergeGroup g).Pairwise rectDisjoint := by
  cases g with
  | nil => simp [mergeGroup]
  | cons s rest =>
      obtain ⟨hsx, hsw⟩ := hkey s (List.mem_cons_self _ _)
      rw [List.pairwise_cons] at hsort
      rw [mergeGroup]
      refine mergeRunsGo_disjoint rest ⟨s.x, s.y, s.w, 1⟩ hsort.2 ?_ ?_
      · intro t ht
        have := hsort.1 t ht
        show s.y + 1 ≤ t.y
        omega
      · intro t ht
        obtain ⟨h1, h2⟩ := hkey t (List.mem_cons_of_mem _ ht)
        exact ⟨h1.trans hsx.symm, h2.trans hsw.symm⟩

theorem mergeGroup_xw (X W : Nat) (g : List RowSpan)
    (hkey : ∀ s ∈ g, s.x = X ∧ s.w = W) :
    ∀ r ∈ mergeGroup g, r.x = X ∧ r.w = W := by
  cases g with
  | nil => simp [mergeGroup]
  | cons s rest =>
      obtain ⟨hsx, hsw⟩ := hkey s (List.mem_cons_self _ _)
      intro r hr
      rw [mergeGroup] at hr
      have := mergeRunsGo_xw rest ⟨s.x, s.y, s.w, 1⟩ (fun t ht => by
        obtain ⟨h1, h2⟩ := hkey t (List.mem_cons_of_mem _ ht)
        exact ⟨h1.trans hsx.symm, h2.trans hsw.symm⟩) r hr
      exact ⟨this.1.trans hsx, this.2.trans hsw⟩

theorem mergeGroup_h_pos (g : List RowSpan) :
    ∀ r ∈ mergeGroup g, 1 ≤ r.h := by
  cases g with
  | nil => simp [mergeGroup]
  | cons s rest =>
      intro r hr
      rw [mergeGroup] at hr
      exact mergeRunsGo_h_pos rest ⟨s.x, s.y, s.w, 1⟩ (le_refl 1) r hr

-- ── Assembling `mergeSpansVertically` and `optimizeGrid` ────────────────────

theorem group_sorted (L : List RowSpan) (hpw : L.Pairwise spanOrd)
    (hw : ∀ s ∈ L, 1 ≤ s.w) :
    ∀ kg ∈ buildGroups L, kg.2.Pairwise (fun a b => a.y < b.y) := by
  intro kg hkg
  have h1 := buildGroups_pairwise spanOrd L hpw kg hkg
  have h2 := buildGroups_keyed L kg hkg
  refine List.Pairwise.imp_of_mem ?_ h1
  intro a b ha hb hab
  obtain ⟨hax, haw⟩ := h2 a ha
  obtain ⟨hbx, hbw⟩ := h2 b hb
  have hwa : 1 ≤ a.w := hw a ((buildGroups_mem a L).mp ⟨kg, hkg, ha⟩)
  rcases hab with h | ⟨hy, hx⟩
  · exact h
  · omega

theorem group_sort_eq (L : List RowSpan) (hpw : L.Pairwise spanOrd)
    (hw : ∀ s ∈ L, 1 ≤ s.w) :
    ∀ kg ∈ buildGroups L, sortByY kg.2 = kg.2 := by
  intro kg hkg
  exact sortByY_of_sorted kg.2
    ((group_sorted L hpw hw kg hkg).imp (fun h => le_of_lt h))

theorem mergeSpansVertically_covers (L : List RowSpan) (hpw : L.Pairwise spanOrd)
    (hw : ∀ s ∈ L, 1 ≤ s.w) (i j : Nat) :
    (∃ r ∈ mergeSpansVertically L, rectCovers r i j) ↔
      ∃ s ∈ L, spanCovers s i j := by
  unfold mergeSpansVertically
  constructor
  · rintro ⟨r, hr, hc⟩
    rw [List.mem_flatten] at hr
    obtain ⟨l, hl, hrl⟩ := hr
    obtain ⟨kg, hkg, rfl⟩ := List.mem_map.mp hl
    rw [group_sort_eq L hpw hw kg hkg] at hrl
    have hcov := (mergeGroup_covers i j kg.1.1 kg.1.2 kg.2
      (buildGroups_keyed L kg hkg)).mp ⟨r, hrl, hc⟩
    obtain ⟨s, hsm, hsc⟩ := hcov
    exact ⟨s, (buildGroups_mem s L).mp ⟨kg, hkg, hsm⟩, hsc⟩
  · rintro ⟨s, hs, hsc⟩
    obtain ⟨kg, hkg, hsm⟩ := (buildGroups_mem s L).mpr hs
    obtain ⟨r, hrm, hrc⟩ := (mergeGroup_covers i j kg.1.1 kg.1.2 kg.2
      (buildGroups_keyed L kg hkg)).mpr ⟨s, hsm, hsc⟩
    refine ⟨r, ?_, hrc⟩
    rw [List.mem_flatten]
    refine ⟨mergeGroup (sortByY kg.2), List.mem_map.mpr ⟨kg, hkg, rfl⟩, ?_⟩
    rw [group_sort_eq L hpw hw kg hkg]
    exact hrm

theorem mergeSpansVertically_disjoint (L : List RowSpan)
    (hpw : L.Pairwise spanOrd) (hw : ∀ s ∈ L, 1 ≤ s.w) :
    (mergeSpansVertically L).Pairwise rectDisjoint := by
  have hLdisj : L.Pairwise spanDisjoint := hpw.imp (fun h => spanOrd_disjoint _ _ h)
  have hsymm : Symmetric spanDisjoint := by
    intro a b hab i j hc
    exact hab i j ⟨hc.2, hc.1⟩
  unfold mergeSpansVertically
  rw [List.pairwise_flatten]
  constructor
  · intro l hl
    obtain ⟨kg, hkg, rfl⟩ := List.mem_map.mp hl
    rw [group_sort_eq L hpw hw kg hkg]
    exact mergeGroup_disjoint kg.1.1 kg.1.2 kg.2 (group_sorted L hpw hw kg hkg)
      (buildGroups_keyed L kg hkg)
  · rw [List.pairwise_map]
    refine List.Pairwise.imp_of_mem ?_ (buildGroups_keys_distinct L)
    intro kg1 kg2 h1 h2 hne r1 hr1 r2 hr2
    intro i j hc
    obtain ⟨hc1, hc2⟩ := hc
    rw [group_sort_eq L hpw hw kg1 h1] at hr1
    rw [group_sort_eq L hpw hw kg2 h2] at hr2
    obtain ⟨s1, hs1, hsc1⟩ := (mergeGroup_covers i j kg1.1.1 kg1.1.2 kg1.2
      (buildGroups_keyed L kg1 h1)).mp ⟨r1, hr1, hc1⟩
    obtain ⟨s2, hs2, hsc2⟩ := (mergeGroup_covers i j kg2.1.1 kg2.1.2 kg2.2
      (buildGroups_keyed L kg2 h2)).mp ⟨r2, hr2, hc2⟩
    obtain ⟨k1x, k1w⟩ := buildGroups_keyed L kg1 h1 s1 hs1
    obtain ⟨k2x, k2w⟩ := buildGroups_keyed L kg2 h2 s2 hs2
    have hs1L : s1 ∈ L := (buildGroups_mem s1 L).mp ⟨kg1, h1, hs1⟩
    have hs2L : s2 ∈ L := (buildGroups_mem s2 L).mp ⟨kg2, h2, hs2⟩
    have hne12 : s1 ≠ s2 := by
      intro he
      apply hne
      subst he
      have e1 : kg1.1 = (s1.x, s1.w) := Prod.ext k1x.symm k1w.symm
      have e2 : kg2.1 = (s1.x, s1.w) := Prod.ext k2x.symm k2w.symm
      exact e1.trans e2.symm
    exact hLdisj.forall hsymm hs1L hs2L hne12 i j ⟨hsc1, hsc2⟩

theorem optimizeGrid_eq_msv (grid : List (List Bool)) :
    optimizeGrid grid = mergeSpansVertically (rowSpansFrom 0 grid) := by
  unfold optimizeGrid
  by_cases h : rowSpansFrom 0 grid = []
  · rw [if_pos h, h]
    rfl
  · rw [if_neg h]

/-- Master coverage identity for the Rectangle Compactor: a cell is
covered by some output rectangle exactly when it is a `true` cell. -/
theorem optimizeGrid_covers (grid : List (List Bool)) (i j : Nat) :
    (∃ r ∈ optimizeGrid grid, rectCovers r i j) ↔ cellAt grid i j = true := by
  rw [optimizeGrid_eq_msv]
  rw [mergeSpansVertically_covers _ (rowSpansFrom_pairwise 0 grid)
    (fun s hs => (rowSpansFrom_shape 0 grid s hs).2) i j]
  rw [rowSpansFrom_covers i j 0 grid]
  unfold cellAt
  simp

/-- Master disjointness: no two output rectangles of the Compactor share
a cell. -/
theorem optimizeGrid_disjoint (grid : List (List Bool)) :
    (optimizeGrid grid).Pairwise rectDisjoint := by
  rw [optimizeGrid_eq_msv]
  exact mergeSpansVertically_disjoint _ (rowSpansFrom_pairwise 0 grid)
    (fun s hs => (rowSpansFrom_shape 0 grid s hs).2)

-- ── Claim theorems ──────────────────────────────────────────────────────────

theorem countP_covers_eq_one (l : List Rectangle) (i j : Nat)
    (hdisj : l.Pairwise rectDisjoint) (hex : ∃ r ∈ l, rectCovers r i j) :
    l.countP (fun r => decide (rectCovers r i j)) = 1 := by
  rw [List.countP_eq_length_filter]
  have hpw : (l.filter (fun r => decide (rectCovers r i j))).Pairwise rectDisjoint :=
    hdisj.filter _
  obtain ⟨r0, hr0, hc0⟩ := hex
  have hr0f : r0 ∈ l.filter (fun r => decide (rectCovers r i j)) :=
    List.mem_filter.mpr ⟨hr0, decide_eq_true hc0⟩
  match hfl : l.filter (fun r => decide (rectCovers r i j)) with
  | [] => rw [hfl] at hr0f; simp at hr0f
  | [a] => rfl
  | a :: b :: t =>
      exfalso
      rw [hfl] at hpw
      have hab : rectDisjoint a b := (List.pairwise_cons.mp hpw).1 b
        (List.mem_cons_self _ _)
      have haf : a ∈ l.filter (fun r => decide (rectCovers r i j)) := by
        rw [hfl]; exact List.mem_cons_self _ _
      have hbf : b ∈ l.filter (fun r => decide (rectCovers r i j)) := by
        rw [hfl]; exact List.mem_cons_of_mem _ (List.mem_cons_self _ _)
      have hca := of_decide_eq_true (List.mem_filter.mp haf).2
      have hcb := of_decide_eq_true (List.mem_filter.mp hbf).2
      exact hab i j ⟨hca, hcb⟩

theorem optimizeGrid_exactly_tiles (grid : List (List Bool))
    (_hrect : ∀ row ∈ grid, row.length = (grid.getD 0 []).length) :
    (∀ i j, cellAt grid i j = true →
      (optimizeGrid grid).countP (fun r => decide (rectCovers r i j)) = 1)
    ∧ (∀ i j, cellAt grid i j = false →
      ∀ r ∈ optimizeGrid grid, ¬ rectCovers r i j)
    ∧ (optimizeGrid grid).Pairwise rectDisjoint := by
  refine ⟨?_, ?_, optimizeGrid_disjoint grid⟩
  · intro i j hc
    exact countP_covers_eq_one (optimizeGrid grid) i j (optimizeGrid_disjoint grid)
      ((optimizeGrid_covers grid i j).mpr hc)
  · intro i j hc r hr hcov
    have := (optimizeGrid_covers grid i j).mp ⟨r, hr, hcov⟩
    rw [hc] at this
    exact Bool.false_ne_true this

theorem optimizeGrid_exactly_tiles_witness :
    (∀ row ∈ [[true, false], [true, true]],
      row.length = ([[true, false], [true, true]].getD 0 []).length)
    ∧ ((∀ i j, cellAt [[true, false], [true, true]] i j = true →
        (optimizeGrid [[true, false], [true, true]]).countP
          (fun r => decide (rectCovers r i j)) = 1)
      ∧ (∀ i j, cellAt [[true, false], [true, true]] i j = false →
        ∀ r ∈ optimizeGrid [[true, false], [true, true]], ¬ rectCovers r i j)
      ∧ (optimizeGrid [[true, false], [true, true]]).Pairwise rectDisjoint) :=
  ⟨by decide, optimizeGrid_exactly_tiles [[true, false], [true, true]] (by decide)⟩

theorem listGetD_lt {α : Type} (l : List α) (i : Nat) (d : α) (h : i < l.length) :
    l.getD i d = l[i] := by
  rw [List.getD_eq_getElem?_getD, List.getElem?_eq_getElem h]
  rfl

theorem reconstructGrid_optimize_eq (grid : List (List Bool)) :
    reconstructGrid grid (optimizeGrid grid) = grid := by
  unfold reconstructGrid
  apply List.ext_getElem
  · simp
  · intro i h1 h2
    simp only [List.getElem_map, List.getElem_range]
    apply List.ext_getElem
    · simp only [List.length_map, List.length_range]
      rw [listGetD_lt grid i [] h2]
    · intro j h3 h4
      simp only [List.getElem_map, List.getElem_range]
      have hcell : cellAt grid i j = grid[i][j] := by
        unfold cellAt
        rw [listGetD_lt grid i [] h2, listGetD_lt grid[i] j false h4]
      have hany :
          ((optimizeGrid grid).any (fun r => decide (rectCovers r i j)) = true)
            ↔ ∃ r ∈ optimizeGrid grid, rectCovers r i j := by
        rw [List.any_eq_true]
        constructor
        · rintro ⟨r, hr, hd⟩
          exact ⟨r, hr, of_decide_eq_true hd⟩
        · rintro ⟨r, hr, hd⟩
          exact ⟨r, hr, decide_eq_true hd⟩
      rw [← hcell]
      have := hany.trans (optimizeGrid_covers grid i j)
      cases hc : cellAt grid i j
      · cases ha : (optimizeGrid grid).any (fun r => decide (rectCovers r i j))
        · rfl
        · rw [hc, ha] at this
          exact absurd (this.mp rfl) Bool.false_ne_true
      · rw [hc] at this
        exact this.mpr rfl

theorem optimizeGrid_retile_idempotent (grid : List (List Bool)) :
    optimizeGrid (reconstructGrid grid (optimizeGrid grid)) = optimizeGrid grid := by
  rw [reconstructGrid_optimize_eq]

theorem mergeRunsGo_maximal (g : List RowSpan) :
    ∀ (rest : List RowSpan) (cur : Rectangle),
    rest.Pairwise (fun a b => a.y < b.y) →
    (∀ s ∈ rest, cur.y + cur.h ≤ s.y) →
    (∀ s ∈ g, cur.y + cur.h ≤ s.y → s ∈ rest) →
    (∀ s ∈ g, s.y + 1 ≠ cur.y) →
    ∀ r ∈ mergeRunsGo cur rest, ∀ s ∈ g, s.y + 1 ≠ r.y ∧ s.y ≠ r.y + r.h := by
  intro rest
  induction rest with
  | nil =>
      intro cur hsort hge hsup hbelow r hr s hs
      rw [List.mem_singleton.mp hr]
      refine ⟨hbelow s hs, ?_⟩
      intro he
      have := hsup s hs (le_of_eq he.symm)
      simp at this
  | cons t rest ih =>
      intro cur hsort hge hsup hbelow r hr s hs
      have hget := hge t (List.mem_cons_self _ _)
      rw [List.pairwise_cons] at hsort
      rw [mergeRunsGo] at hr
      by_cases hy : t.y = cur.y + cur.h
      · rw [if_pos hy] at hr
        refine ih ⟨cur.x, cur.y, cur.w, cur.h + 1⟩ hsort.2 ?_ ?_ hbelow r hr s hs
        · intro u hu
          have := hsort.1 u hu
          show cur.y + (cur.h + 1) ≤ u.y
          omega
        · intro u hu hle
          have hle2 : cur.y + cur.h ≤ u.y := by
            revert hle
            show cur.y + (cur.h + 1) ≤ u.y → _
            omega
          rcases List.mem_cons.mp (hsup u hu hle2) with h | h
          · exfalso
            revert hle
            show cur.y + (cur.h + 1) ≤ u.y → False
            subst h
            omega
          · exact h
      · rw [if_neg hy] at hr
        rcases List.mem_cons.mp hr with h | h
        · subst h
          refine ⟨hbelow s hs, ?_⟩
          intro he
          rcases List.mem_cons.mp (hsup s hs (le_of_eq he.symm)) with h2 | h2
          · subst h2; omega
          · have := hsort.1 s h2
            omega
        · refine ih ⟨t.x, t.y, t.w, 1⟩ hsort.2 ?_ ?_ ?_ r h s hs
          · intro u hu
            have := hsort.1 u hu
            show t.y + 1 ≤ u.y
            omega
          · intro u hu hle
            have hle2 : t.y + 1 ≤ u.y := hle
            rcases List.mem_cons.mp (hsup u hu (by omega)) with h2 | h2
            · exfalso; subst h2; omega
            · exact h2
          · intro u hu he
            have he2 : u.y + 1 = t.y := he
            by_cases hcu : cur.y + cur.h ≤ u.y
            · rcases List.mem_cons.mp (hsup u hu hcu) with h2 | h2
              · subst h2; omega
              · have := hsort.1 u h2
                omega
            · omega

theorem mergeGroup_maximal (g : List RowSpan)
    (hsort : g.Pairwise (fun a b => a.y < b.y)) :
    ∀ r ∈ mergeGroup g, ∀ s ∈ g, s.y + 1 ≠ r.y ∧ s.y ≠ r.y + r.h := by
  cases g with
  | nil => simp [mergeGroup]
  | cons t rest =>
      rw [List.pairwise_cons] at hsort
      rw [mergeGroup]
      intro r hr s hs
      refine mergeRunsGo_maximal (t :: rest) rest ⟨t.x, t.y, t.w, 1⟩ hsort.2
        ?_ ?_ ?_ r hr s hs
      · intro u hu
        have := hsort.1 u hu
        show t.y + 1 ≤ u.y
        omega
      · intro u hu hle
        have hle2 : t.y + 1 ≤ u.y := hle
        rcases List.mem_cons.mp hu with h2 | h2
        · exfalso; subst h2; omega
        · exact h2
      · intro u hu
        show u.y + 1 ≠ t.y
        rcases List.mem_cons.mp hu with h2 | h2
        · subst h2; omega
        · have := hsort.1 u h2
          omega

theorem mergeSpansVertically_maximal_runs (L : List RowSpan)
    (hpw : L.Pairwise spanOrd) (hw : ∀ s ∈ L, 1 ≤ s.w) :
    ((∀ r ∈ mergeSpansVertically L,
        1 ≤ r.h
        ∧ (∀ k, k < r.h → ∃ s ∈ L, s.x = r.x ∧ s.w = r.w ∧ s.y = r.y + k)
        ∧ (∀ s ∈ L, s.x = r.x → s.w = r.w → s.y + 1 ≠ r.y ∧ s.y ≠ r.y + r.h))
      ∧ (∀ s ∈ L, ∃ r ∈ mergeSpansVertically L,
          r.x = s.x ∧ r.w = s.w ∧ r.y ≤ s.y ∧ s.y < r.y + r.h))
    ∧ optimizeGrid gridRows67 = [⟨0, 6, 8, 2⟩] := by
  constructor
  · constructor
    · intro r hr
      rw [mergeSpansVertically, List.mem_flatten] at hr
      obtain ⟨l, hl, hrl⟩ := hr
      obtain ⟨kg, hkg, rfl⟩ := List.mem_map.mp hl
      rw [group_sort_eq L hpw hw kg hkg] at hrl
      have hkeyed := buildGroups_keyed L kg hkg
      have hxw := mergeGroup_xw kg.1.1 kg.1.2 kg.2 hkeyed r hrl
      have hh := mergeGroup_h_pos kg.2 r hrl
      refine ⟨hh, ?_, ?_⟩
      · intro k hk
        have hrw : 1 ≤ r.w := by
          cases hg : kg.2 with
          | nil => rw [hg] at hrl; simp [mergeGroup] at hrl
          | cons s0 g0 =>
              have hs0 : s0 ∈ kg.2 := by rw [hg]; exact List.mem_cons_self _ _
              have h1 := hw s0 ((buildGroups_mem s0 L).mp ⟨kg, hkg, hs0⟩)
              obtain ⟨e1, e2⟩ := hkeyed s0 hs0
              omega
        have hcov : rectCovers r (r.y + k) r.x := ⟨by omega, by omega, by omega, by omega⟩
        obtain ⟨s, hsm, hsc⟩ := (mergeGroup_covers (r.y + k) r.x kg.1.1 kg.1.2 kg.2
          hkeyed).mp ⟨r, hrl, hcov⟩
        obtain ⟨e1, e2⟩ := hkeyed s hsm
        exact ⟨s, (buildGroups_mem s L).mp ⟨kg, hkg, hsm⟩,
          e1.trans hxw.1.symm, e2.trans hxw.2.symm, hsc.1⟩
      · intro s hsL hx hwid
        have hkey : kg.1 = (s.x, s.w) := by
          have : kg.1 = (r.x, r.w) := Prod.ext hxw.1.symm hxw.2.symm
          rw [this, hx, hwid]
        have hsm : s ∈ kg.2 := buildGroups_key_mem s L hsL kg hkg hkey
        exact mergeGroup_maximal kg.2 (group_sorted L hpw hw kg hkg) r hrl s hsm
    · intro s hsL
      obtain ⟨kg, hkg, hsm⟩ := (buildGroups_mem s L).mpr hsL
      have hkeyed := buildGroups_keyed L kg hkg
      have hws := hw s hsL
      have hsc : spanCovers s s.y s.x := ⟨rfl, by omega, by omega⟩
      obtain ⟨r, hrl, hrc⟩ := (mergeGroup_covers s.y s.x kg.1.1 kg.1.2 kg.2
        hkeyed).mpr ⟨s, hsm, hsc⟩
      have hxw := mergeGroup_xw kg.1.1 kg.1.2 kg.2 hkeyed r hrl
      obtain ⟨e1, e2⟩ := hkeyed s hsm
      refine ⟨r, ?_, hxw.1.trans e1.symm, hxw.2.trans e2.symm, hrc.1, hrc.2.1⟩
      rw [mergeSpansVertically, List.mem_flatten]
      refine ⟨mergeGroup (sortByY kg.2), List.mem_map.mpr ⟨kg, hkg, rfl⟩, ?_⟩
      rw [group_sort_eq L hpw hw kg hkg]
      exact hrl
  · simp [gridRows67, optimizeGrid, rowSpansFrom, extractRowSpans, extractFrom,
      takeRun, mergeSpansVertically, buildGroups, buildGroupsAux, groupInsert,
      sortByY, insertByY, mergeGroup, mergeRunsGo, List.replicate]

theorem mergeSpansVertically_maximal_runs_witness :
    (([⟨0, 0, 1⟩, ⟨0, 1, 1⟩] : List RowSpan).Pairwise spanOrd
      ∧ (∀ s ∈ ([⟨0, 0, 1⟩, ⟨0, 1, 1⟩] : List RowSpan), 1 ≤ s.w))
    ∧ (((∀ r ∈ mergeSpansVertically [⟨0, 0, 1⟩, ⟨0, 1, 1⟩],
        1 ≤ r.h
        ∧ (∀ k, k < r.h → ∃ s ∈ ([⟨0, 0, 1⟩, ⟨0, 1, 1⟩] : List RowSpan),
            s.x = r.x ∧ s.w = r.w ∧ s.y = r.y + k)
        ∧ (∀ s ∈ ([⟨0, 0, 1⟩, ⟨0, 1, 1⟩] : List RowSpan),
            s.x = r.x → s.w = r.w → s.y + 1 ≠ r.y ∧ s.y ≠ r.y + r.h))
      ∧ (∀ s ∈ ([⟨0, 0, 1⟩, ⟨0, 1, 1⟩] : List RowSpan),
          ∃ r ∈ mergeSpansVertically [⟨0, 0, 1⟩, ⟨0, 1, 1⟩],
          r.x = s.x ∧ r.w = s.w ∧ r.y ≤ s.y ∧ s.y < r.y + r.h))
      ∧ optimizeGrid gridRows67 = [⟨0, 6, 8, 2⟩]) :=
  ⟨⟨by decide, by decide⟩,
    mergeSpansVertically_maximal_runs [⟨0, 0, 1⟩, ⟨0, 1, 1⟩] (by decide) (by decide)⟩

theorem glyphToPath_subpaths_spec :
    (∀ (rects : List Rectangle) (pixelSize baselineRow : Int),
      glyphToPath rects pixelSize baselineRow =
        (rects.map (specRectSubPath pixelSize baselineRow)).flatten)
    ∧ (∀ (rects : List Rectangle) (pixelSize baselineRow : Int),
      (glyphToPath rects pixelSize baselineRow).countP
        (fun c => decide (c = PathCmd.close)) = rects.length)
    ∧ (∀ (b : Nat) (P : Int),
      glyphToPath [⟨0, b, 1, 1⟩] P ((b : Int) + 1) =
        [.move 0 P, .line P P, .line P 0, .line 0 0, .close]) := by
  refine ⟨?_, ?_, ?_⟩
  · intro rects P B
    rfl
  · intro rects P B
    induction rects with
    | nil => rfl
    | cons r rs ih =>
        have hcons : glyphToPath (r :: rs) P B =
            rectSubPath P B r ++ glyphToPath rs P B := by
          unfold glyphToPath
          rw [List.map_cons, List.flatten_cons]
        rw [hcons, List.countP_append, ih]
        unfold rectSubPath
        simp [List.countP_cons]
        omega
  · intro b P
    unfold glyphToPath rectSubPath
    simp

-- ── The weight-derivation transform, cell level ─────────────────────────────

theorem listGetD_set (l : List Bool) (i c : Nat) (b d : Bool) :
    (l.set i b).getD c d = if i = c ∧ i < l.length then b else l.getD c d := by
  rw [List.getD_eq_getElem?_getD, List.getElem?_set, List.getD_eq_getElem?_getD]
  by_cases h1 : i = c
  · subst h1
    by_cases h2 : i < l.length
    · simp [h2]
    · have hn : l[i]? = none := List.getElem?_eq_none (by omega)
      simp [h2, hn]
  · simp [h1]

theorem autoBoldRow_eq_foldl (orig : List Bool) :
    autoBoldRow orig = (List.range orig.length).foldl (autoBoldStep orig) orig :=
  rfl

theorem autoBoldStep_fold_len (orig : List Bool) : ∀ (cols : List Nat)
    (acc : List Bool), (cols.foldl (autoBoldStep orig) acc).length = acc.length := by
  intro cols
  induction cols with
  | nil => intro acc; rfl
  | cons c cols ih =>
      intro acc
      rw [List.foldl_cons, ih]
      unfold autoBoldStep
      by_cases h : orig.getD c false && decide (c + 1 < orig.length)
      · rw [if_pos h, List.length_set]
      · rw [if_neg h]

theorem autoBoldRow_fold_spec (orig : List Bool) : ∀ (k : Nat) (c : Nat),
    ((List.range k).foldl (autoBoldStep orig) orig).getD c false = true ↔
      (orig.getD c false = true ∨
        (1 ≤ c ∧ c ≤ k ∧ c < orig.length ∧ orig.getD (c - 1) false = true)) := by
  intro k
  induction k with
  | zero =>
      intro c
      simp only [List.range_zero, List.foldl_nil]
      constructor
      · intro h; exact Or.inl h
      · rintro (h | ⟨h1, h2, h3, h4⟩)
        · exact h
        · omega
  | succ k ih =>
      intro c
      rw [List.range_succ, List.foldl_append, List.foldl_cons, List.foldl_nil]
      have hlen : ((List.range k).foldl (autoBoldStep orig) orig).length =
          orig.length := autoBoldStep_fold_len orig (List.range k) orig
      rw [show autoBoldStep orig ((List.range k).foldl (autoBoldStep orig) orig) k =
        (if orig.getD k false && decide (k + 1 < orig.length) then
          ((List.range k).foldl (autoBoldStep orig) orig).set (k + 1) true
        else (List.range k).foldl (autoBoldStep orig) orig) from rfl]
      by_cases hw : orig.getD k false = true ∧ k + 1 < orig.length
      · have hcond : (orig.getD k false && decide (k + 1 < orig.length)) = true := by
          rw [hw.1, decide_eq_true hw.2]
          rfl
        rw [if_pos hcond, listGetD_set, hlen]
        by_cases hc : k + 1 = c ∧ k + 1 < orig.length
        · rw [if_pos hc]
          constructor
          · intro _
            refine Or.inr ⟨by omega, by omega, by omega, ?_⟩
            have he : c - 1 = k := by omega
            rw [he]
            exact hw.1
          · intro _; rfl
        · rw [if_neg hc, ih c]
          constructor
          · rintro (h | ⟨h1, h2, h3, h4⟩)
            · exact Or.inl h
            · exact Or.inr ⟨h1, by omega, h3, h4⟩
          · rintro (h | ⟨h1, h2, h3, h4⟩)
            · exact Or.inl h
            · refine Or.inr ⟨h1, ?_, h3, h4⟩
              rcases Nat.lt_or_ge c (k + 1) with h5 | h5
              · omega
              · exfalso
                exact hc ⟨by omega, by omega⟩
      · have hcondf : (orig.getD k false && decide (k + 1 < orig.length)) = false := by
          cases hgk : orig.getD k false
          · rfl
          · simp only [Bool.true_and]
            apply decide_eq_false
            intro hlt
            exact hw ⟨hgk, hlt⟩
        rw [if_neg (by rw [hcondf]; simp), ih c]
        constructor
        · rintro (h | ⟨h1, h2, h3, h4⟩)
          · exact Or.inl h
          · exact Or.inr ⟨h1, by omega, h3, h4⟩
        · rintro (h | ⟨h1, h2, h3, h4⟩)
          · exact Or.inl h
          · refine Or.inr ⟨h1, ?_, h3, h4⟩
            by_cases hck : c = k + 1
            · exfalso
              apply hw
              refine ⟨?_, by omega⟩
              have he : c - 1 = k := by omega
              rw [he] at h4
              exact h4
            · omega

theorem autoBoldRow_len (orig : List Bool) :
    (autoBoldRow orig).length = orig.length := by
  rw [autoBoldRow_eq_foldl]
  exact autoBoldStep_fold_len orig (List.range orig.length) orig

theorem autoBoldRow_cell (orig : List Bool) (c : Nat) :
    (autoBoldRow orig).getD c false = true ↔
      (orig.getD c false = true ∨
        (1 ≤ c ∧ c < orig.length ∧ orig.getD (c - 1) false = true)) := by
  rw [autoBoldRow_eq_foldl, autoBoldRow_fold_spec orig orig.length c]
  constructor
  · rintro (h | ⟨h1, h2, h3, h4⟩)
    · exact Or.inl h
    · exact Or.inr ⟨h1, h3, h4⟩
  · rintro (h | ⟨h1, h3, h4⟩)
    · exact Or.inl h
    · exact Or.inr ⟨h1, by omega, h3, h4⟩

theorem autoBold_cell_iff (grid : List (List Bool)) (r c : Nat)
    (hc : c < (grid.getD r []).length) :
    (((autoBold grid).getD r []).getD c false = true ↔
      ((grid.getD r []).getD c false = true ∨
        (0 < c ∧ (grid.getD r []).getD (c - 1) false = true)))
    ∧ autoBold gridCorner57 = gridCorner57 := by
  constructor
  · by_cases hr : r < grid.length
    · have hgrid : grid.length ≠ 0 := by omega
      have hab : autoBold grid = grid.map autoBoldRow := by
        unfold autoBold
        rw [if_neg hgrid]
      have hmap : r < (grid.map autoBoldRow).length := by
        rw [List.length_map]; exact hr
      rw [hab, listGetD_lt (grid.map autoBoldRow) r [] hmap, List.getElem_map,
        listGetD_lt grid r [] hr]
      rw [listGetD_lt grid r [] hr] at hc
      rw [autoBoldRow_cell]
      constructor
      · rintro (h | ⟨h1, h2, h3⟩)
        · exact Or.inl h
        · exact Or.inr ⟨h1, h3⟩
      · rintro (h | ⟨h1, h3⟩)
        · exact Or.inl h
        · exact Or.inr ⟨h1, hc, h3⟩
    · exfalso
      have hd : grid.getD r [] = [] := List.getD_eq_default _ _ (by omega)
      rw [hd] at hc
      simp at hc
  · decide

theorem autoBold_cell_iff_witness :
    1 < (gridW7.getD 0 []).length
    ∧ ((((autoBold gridW7).getD 0 []).getD 1 false = true ↔
        ((gridW7.getD 0 []).getD 1 false = true ∨
          (0 < 1 ∧ (gridW7.getD 0 []).getD 0 false = true)))
      ∧ autoBold gridCorner57 = gridCorner57) :=
  ⟨by decide, autoBold_cell_iff gridW7 0 1 (by decide)⟩

theorem autoBold_preserves_shape_and_pixels (grid : List (List Bool)) :
    (autoBold grid).length = grid.length
    ∧ (∀ r, ((autoBold grid).getD r []).length = (grid.getD r []).length)
    ∧ (∀ r c, (grid.getD r []).getD c false = true →
        ((autoBold grid).getD r []).getD c false = true) := by
  by_cases hz : grid.length = 0
  · have hnil : grid = [] := List.length_eq_zero.mp hz
    subst hnil
    refine ⟨rfl, ?_, ?_⟩
    · intro r; rfl
    · intro r c h
      simp [List.getD] at h
  · have hab : autoBold grid = grid.map autoBoldRow := by
      unfold autoBold
      rw [if_neg hz]
    rw [hab]
    refine ⟨List.length_map _ _, ?_, ?_⟩
    · intro r
      by_cases hr : r < grid.length
      · have hmap : r < (grid.map autoBoldRow).length := by
          rw [List.length_map]; exact hr
        rw [listGetD_lt (grid.map autoBoldRow) r [] hmap, List.getElem_map,
          listGetD_lt grid r [] hr]
        exact autoBoldRow_len _
      · have hd1 : (grid.map autoBoldRow).getD r [] = [] :=
          List.getD_eq_default _ _ (by simp; omega)
        have hd2 : grid.getD r [] = [] := List.getD_eq_default _ _ (by omega)
        rw [hd1, hd2]
    · intro r c h
      by_cases hr : r < grid.length
      · have hmap : r < (grid.map autoBoldRow).length := by
          rw [List.length_map]; exact hr
        rw [listGetD_lt (grid.map autoBoldRow) r [] hmap, List.getElem_map]
        rw [listGetD_lt grid r [] hr] at h
        exact (autoBoldRow_cell _ c).mpr (Or.inl h)
      · have hd2 : grid.getD r [] = [] := List.getD_eq_default _ _ (by omega)
        rw [hd2] at h
        simp [List.getD] at h

theorem buildGlyphs_advanceWidth (cfg : FontConfig) (ltc : List (String × Nat))
    (pgs : List ParsedGlyph) (k : Nat) (hk : k < pgs.length) :
    ((pgs.getD k default).header.components = none →
      ((buildGlyphs pgs cfg ltc).getD k default).advanceWidth =
        cfg.grid.width * cfg.metrics.pixelSize)
    ∧ (∀ comps, (pgs.getD k default).header.components = some comps →
        (pgs.getD k default).width = comps.length * cfg.grid.width →
        ((buildGlyphs pgs cfg ltc).getD k default).advanceWidth =
          comps.length * cfg.grid.width * cfg.metrics.pixelSize) := by
  have hbg : (buildGlyphs pgs cfg ltc).getD k default =
      buildOneGlyph cfg ltc (pgs.getD k default) := by
    have hk2 : k < (pgs.map (buildOneGlyph cfg ltc)).length := by
      rw [List.length_map]; exact hk
    unfold buildGlyphs
    rw [listGetD_lt _ k _ hk2, listGetD_lt _ k _ hk, List.getElem_map]
  constructor
  · intro hnone
    rw [hbg]
    unfold buildOneGlyph
    simp only [hnone, Option.isSome_none, Bool.false_eq_true, if_false]
    exact Nat.mul_comm _ _
  · intro comps hcomps hwidth
    rw [hbg]
    unfold buildOneGlyph
    simp only [hcomps, hwidth, Option.isSome_some, if_true]
    ring

theorem buildGlyphs_advanceWidth_witness :
    1 < pgsW5.length
    ∧ (((pgsW5.getD 1 default).header.components = none →
        ((buildGlyphs pgsW5 cfgW []).getD 1 default).advanceWidth =
          cfgW.grid.width * cfgW.metrics.pixelSize)
      ∧ (∀ comps, (pgsW5.getD 1 default).header.components = some comps →
          (pgsW5.getD 1 default).width = comps.length * cfgW.grid.width →
          ((buildGlyphs pgsW5 cfgW []).getD 1 default).advanceWidth =
            comps.length * cfgW.grid.width * cfgW.metrics.pixelSize)) :=
  ⟨by decide, buildGlyphs_advanceWidth cfgW [] pgsW5 1 (by decide)⟩

/-- Every error produced by checks 1–5 for glyph `g` references `g`'s
file and carries one of the six per-glyph message shapes. -/
theorem glyphErrors_cases (cfg : FontConfig) (rf : String → List String)
    (g : ParsedGlyph) (e : ValidationError) (he : e ∈ glyphErrors cfg rf g) :
    e.file = g.filePath ∧
      ((e.message = .gridRows g.height cfg.grid.height ∧ g.height ≠ cfg.grid.height)
      ∨ (e.message = .gridWidth g.width cfg.grid.width ∧ g.width ≠ cfg.grid.width)
      ∨ (∃ a b, e.message = .rowWidth a b cfg.grid.width)
      ∨ (∃ a b, e.message = .invalidChars a b)
      ∨ (∃ cp, e.message = .badCodepoint cp)
      ∨ (∃ cp, e.message = .surrogateCodepoint cp)) := by
  unfold glyphErrors at he
  rcases List.mem_append.mp he with hABCD | hE
  · rcases List.mem_append.mp hABCD with hABC | hD
    · rcases List.mem_append.mp hABC with hAB | hC
      · rcases List.mem_append.mp hAB with hA | hB
        · by_cases h : g.height ≠ cfg.grid.height
          · rw [if_pos h] at hA
            rw [List.mem_singleton.mp hA]
            exact ⟨rfl, Or.inl ⟨rfl, h⟩⟩
          · rw [if_neg h] at hA
            simp at hA
        · by_cases h : g.width ≠ cfg.grid.width
          · rw [if_pos h] at hB
            rw [List.mem_singleton.mp hB]
            exact ⟨rfl, Or.inr (Or.inl ⟨rfl, h⟩)⟩
          · rw [if_neg h] at hB
            simp at hB
      · obtain ⟨p, _, rfl⟩ := List.mem_map.mp hC
        exact ⟨rfl, Or.inr (Or.inr (Or.inl ⟨p.1, p.2, rfl⟩))⟩
    · obtain ⟨p, _, rfl⟩ := List.mem_map.mp hD
      exact ⟨rfl, Or.inr (Or.inr (Or.inr (Or.inl ⟨p.1, p.2, rfl⟩)))⟩
  · cases hcp : g.header.codepoint with
    | none =>
        rw [hcp] at hE
        simp at hE
    | some cp =>
        rw [hcp] at hE
        rcases List.mem_append.mp hE with h1 | h2
        · by_cases h : 0x10FFFF < cp
          · rw [if_pos h] at h1
            rw [List.mem_singleton.mp h1]
            exact ⟨rfl, Or.inr (Or.inr (Or.inr (Or.inr (Or.inl ⟨cp, rfl⟩))))⟩
          · rw [if_neg h] at h1
            simp at h1
        · by_cases h : 0xD800 ≤ cp ∧ cp ≤ 0xDFFF
          · rw [if_pos h] at h2
            rw [List.mem_singleton.mp h2]
            exact ⟨rfl, Or.inr (Or.inr (Or.inr (Or.inr (Or.inr ⟨cp, rfl⟩))))⟩
          · rw [if_neg h] at h2
            simp at h2

theorem glyphErrors_width_mem (cfg : FontConfig) (rf : String → List String)
    (g : ParsedGlyph) (h : g.width ≠ cfg.grid.width) :
    (⟨g.filePath, .gridWidth g.width cfg.grid.width⟩ : ValidationError) ∈
      glyphErrors cfg rf g := by
  unfold glyphErrors
  refine List.mem_append.mpr (Or.inl (List.mem_append.mpr (Or.inl
    (List.mem_append.mpr (Or.inl (List.mem_append.mpr (Or.inr ?_)))))))
  rw [if_pos h]
  exact List.mem_singleton.mpr rfl

theorem duplicateErrors_message (glyphs : List ParsedGlyph)
    (e : ValidationError) (he : e ∈ duplicateErrors glyphs) :
    ∃ cp, e.message = .duplicateCodepoint cp := by
  unfold duplicateErrors at he
  obtain ⟨kl, _, hemit⟩ := List.mem_filterMap.mp he
  by_cases h : 2 ≤ kl.2.length
  · rw [if_pos h] at hemit
    rw [← Option.some_inj.mp hemit]
    exact ⟨kl.1, rfl⟩
  · rw [if_neg h] at hemit
    simp at hemit

theorem missingAsciiErrors_message (glyphs : List ParsedGlyph)
    (e : ValidationError) (he : e ∈ missingAsciiErrors glyphs) :
    ∃ cp, e.message = .missingAscii cp := by
  unfold missingAsciiErrors at he
  obtain ⟨cp, _, rfl⟩ := List.mem_map.mp he
  exact ⟨cp, rfl⟩

theorem validateGlyphs_width_error_iff (glyphs : List ParsedGlyph)
    (cfg : FontConfig) (rf : String → List String)
    (hnd : (glyphs.map (fun g => g.filePath)).Nodup)
    (g : ParsedGlyph) (hg : g ∈ glyphs) :
    (∃ e ∈ validateGlyphs glyphs cfg rf,
        e.file = g.filePath ∧ e.message = .gridWidth g.width cfg.grid.width) ↔
      g.width ≠ cfg.grid.width := by
  constructor
  · rintro ⟨e, he, hef, hem⟩
    unfold validateGlyphs at he
    rcases List.mem_append.mp he with h1 | h2
    · rcases List.mem_append.mp h1 with h3 | h4
      · rw [List.mem_flatten] at h3
        obtain ⟨l, hl, hel⟩ := h3
        obtain ⟨g2, hg2, rfl⟩ := List.mem_map.mp hl
        obtain ⟨hfile, hcases⟩ := glyphErrors_cases cfg rf g2 e hel
        have hg2g : g2 = g :=
          List.inj_on_of_nodup_map hnd hg2 hg (hfile ▸ hef)
        subst hg2g
        rcases hcases with ⟨hm, _⟩ | ⟨hm, hw⟩ | ⟨a, b, hm⟩ | ⟨a, b, hm⟩
          | ⟨cp, hm⟩ | ⟨cp, hm⟩
        · rw [hem] at hm; cases hm
        · exact hw
        · rw [hem] at hm; cases hm
        · rw [hem] at hm; cases hm
        · rw [hem] at hm; cases hm
        · rw [hem] at hm; cases hm
      · obtain ⟨cp, hm⟩ := duplicateErrors_message glyphs e h4
        rw [hem] at hm; cases hm
    · obtain ⟨cp, hm⟩ := missingAsciiErrors_message glyphs e h2
      rw [hem] at hm; cases hm
  · intro hw
    refine ⟨⟨g.filePath, .gridWidth g.width cfg.grid.width⟩, ?_, rfl, rfl⟩
    unfold validateGlyphs
    refine List.mem_append.mpr (Or.inl (List.mem_append.mpr (Or.inl ?_)))
    rw [List.mem_flatten]
    exact ⟨glyphErrors cfg rf g,
      List.mem_map.mpr ⟨g, hg, rfl⟩, glyphErrors_width_mem cfg rf g hw⟩

theorem validateGlyphs_ligature_width_cex :
    ligGlyphW.header.components = some ["equal", "greater"]
    ∧ ligGlyphW.width = 2 * cfgW.grid.width
    ∧ (validateGlyphs [ligGlyphW] cfgW (fun _ => [])).countP
        (fun e => e.message == VMessage.gridWidth ligGlyphW.width cfgW.grid.width)
      = 1 := by
  refine ⟨rfl, rfl, ?_⟩
  decide

theorem validateGlyphs_width_error_iff_witness :
    ((([ligGlyphW].map (fun g => g.filePath)).Nodup) ∧ ligGlyphW ∈ [ligGlyphW])
    ∧ ((∃ e ∈ validateGlyphs [ligGlyphW] cfgW (fun _ => []),
        e.file = ligGlyphW.filePath
          ∧ e.message = .gridWidth ligGlyphW.width cfgW.grid.width) ↔
      ligGlyphW.width ≠ cfgW.grid.width) :=
  ⟨⟨by decide, by decide⟩,
    validateGlyphs_width_error_iff [ligGlyphW] cfgW (fun _ => [])
      (by decide) ligGlyphW (by decide)⟩

theorem occLookup_insert (cp : Nat) (g : ParsedGlyph) (c : Nat) :
    ∀ acc : List (Nat × List ParsedGlyph),
    occLookup (occInsert cp g acc) c =
      if c = cp then occLookup acc c ++ [g] else occLookup acc c := by
  intro acc
  induction acc with
  | nil =>
      by_cases h : c = cp
      · subst h
        simp [occInsert, occLookup, List.find?]
      · simp only [occInsert, occLookup, List.find?]
        have hb : ((cp, [g]).1 == c) = false := by
          simp only [beq_eq_false_iff_ne]
          intro he
          exact h he.symm
        rw [hb]
        simp [if_neg h]
  | cons kl0 rest ih =>
      obtain ⟨k, l⟩ := kl0
      by_cases hk : k = cp
      · rw [occInsert, if_pos hk]
        by_cases hc : c = cp
        · subst hc
          subst hk
          simp [occLookup, List.find?]
        · have hb : (k == c) = false := by
            simp only [beq_eq_false_iff_ne]
            intro he
            exact hc (hk ▸ he).symm
          simp only [occLookup, List.find?, hb, if_neg hc]
      · rw [occInsert, if_neg hk]
        by_cases hkc : k = c
        · have hcc : ¬(c = cp) := fun h => hk (hkc.trans h)
          have hb : (k == c) = true := beq_iff_eq.mpr hkc
          simp only [occLookup, List.find?, hb, if_neg hcc]
        · have hb : (k == c) = false := by
            simp only [beq_eq_false_iff_ne]
            exact hkc
          simp only [occLookup, List.find?, hb] at ih ⊢
          exact ih

theorem occLookup_buildOccAux (c : Nat) : ∀ (gs : List ParsedGlyph)
    (acc : List (Nat × List ParsedGlyph)),
    occLookup (buildOccAux acc gs) c =
      occLookup acc c ++ gs.filter (fun x => x.header.codepoint == some c) := by
  intro gs
  induction gs with
  | nil => intro acc; simp [buildOccAux]
  | cons g rest ih =>
      intro acc
      rw [buildOccAux]
      cases hcp : g.header.codepoint with
      | none =>
          rw [ih]
          have hf : (g.header.codepoint == some c) = false := by
            rw [hcp]
            rfl
          rw [List.filter_cons, hf]
          simp
      | some cp =>
          rw [ih, occLookup_insert]
          rw [List.filter_cons]
          by_cases hc : c = cp
          · subst hc
            have ht : (g.header.codepoint == some c) = true := by
              rw [hcp]
              simp
            rw [if_pos rfl, ht]
            simp
          · have hf : (g.header.codepoint == some c) = false := by
              rw [hcp]
              simp only [beq_eq_false_iff_ne]
              intro he
              exact hc (Option.some_inj.mp he).symm
            rw [if_neg hc, hf]
            simp

theorem occInsert_key_mem2 (cp : Nat) (g : ParsedGlyph) :
    ∀ acc : List (Nat × List ParsedGlyph),
    ∀ kl ∈ occInsert cp g acc, kl.1 = cp ∨ kl.1 ∈ acc.map Prod.fst := by
  intro acc
  induction acc with
  | nil => simp [occInsert]
  | cons kl0 rest ih =>
      obtain ⟨k, l⟩ := kl0
      intro kl hkl
      by_cases hk : k = cp
      · rw [occInsert, if_pos hk] at hkl
        rcases List.mem_cons.mp hkl with h | h
        · subst h; exact Or.inl hk
        · exact Or.inr (List.mem_map.mpr ⟨kl, List.mem_cons_of_mem _ h, rfl⟩)
      · rw [occInsert, if_neg hk] at hkl
        rcases List.mem_cons.mp hkl with h | h
        · subst h; simp
        · rcases ih kl h with h2 | h2
          · exact Or.inl h2
          · simp only [List.map_cons, List.mem_cons]
            exact Or.inr (Or.inr h2)

theorem occInsert_keys_distinct (cp : Nat) (g : ParsedGlyph) :
    ∀ acc : List (Nat × List ParsedGlyph),
    acc.Pairwise (fun a b => a.1 ≠ b.1) →
    (occInsert cp g acc).Pairwise (fun a b => a.1 ≠ b.1) := by
  intro acc
  induction acc with
  | nil => intro _; simp [occInsert]
  | cons kl0 rest ih =>
      obtain ⟨k, l⟩ := kl0
      intro hacc
      rw [List.pairwise_cons] at hacc
      by_cases hk : k = cp
      · rw [occInsert, if_pos hk]
        exact List.Pairwise.cons hacc.1 hacc.2
      · rw [occInsert, if_neg hk]
        refine List.Pairwise.cons ?_ (ih hacc.2)
        intro kl hkl
        rcases occInsert_key_mem2 cp g rest kl hkl with h | h
        · rw [h]; exact hk
        · obtain ⟨kl2, hm, he⟩ := List.mem_map.mp h
          rw [← he]
          exact hacc.1 kl2 hm

theorem buildOccAux_keys_distinct : ∀ (gs : List ParsedGlyph)
    (acc : List (Nat × List ParsedGlyph)),
    acc.Pairwise (fun a b => a.1 ≠ b.1) →
    (buildOccAux acc gs).Pairwise (fun a b => a.1 ≠ b.1) := by
  intro gs
  induction gs with
  | nil => intro acc h; exact h
  | cons g rest ih =>
      intro acc hacc
      rw [buildOccAux]
      cases hcp : g.header.codepoint with
      | none => exact ih acc hacc
      | some cp => exact ih _ (occInsert_keys_distinct cp g acc hacc)

theorem occLookup_entry : ∀ (occs : List (Nat × List ParsedGlyph)),
    occs.Pairwise (fun a b => a.1 ≠ b.1) →
    ∀ kl ∈ occs, kl.2 = occLookup occs kl.1 := by
  intro occs
  induction occs with
  | nil => simp
  | cons kl0 rest ih =>
      obtain ⟨k, l⟩ := kl0
      intro hpw kl hkl
      rw [List.pairwise_cons] at hpw
      rcases List.mem_cons.mp hkl with h | h
      · subst h
        simp [occLookup, List.find?]
      · have hne : k ≠ kl.1 := hpw.1 kl h
        have hb : (k == kl.1) = false := by
          simp only [beq_eq_false_iff_ne]
          exact hne
        simp only [occLookup, List.find?, hb]
        exact ih hpw.2 kl h

theorem occLookup_mem : ∀ (occs : List (Nat × List ParsedGlyph)) (c : Nat),
    occLookup occs c ≠ [] → ∃ kl ∈ occs, kl.1 = c ∧ kl.2 = occLookup occs c := by
  intro occs c
  induction occs with
  | nil => intro h; simp [occLookup, List.find?] at h
  | cons kl0 rest ih =>
      obtain ⟨k, l⟩ := kl0
      intro h
      by_cases hk : k = c
      · subst hk
        refine ⟨(k, l), List.mem_cons_self _ _, rfl, ?_⟩
        simp [occLookup, List.find?]
      · have hb : (k == c) = false := by
          simp only [beq_eq_false_iff_ne]
          exact hk
        simp only [occLookup, List.find?, hb] at h ⊢
        obtain ⟨kl, hm, h1, h2⟩ := ih h
        exact ⟨kl, List.mem_cons_of_mem _ hm, h1, h2⟩

theorem duplicateErrors_eq (glyphs : List ParsedGlyph) :
    duplicateErrors glyphs = (buildOccurrences glyphs).filterMap emitDup := rfl

theorem dupErrCount_zero (cp : Nat) : ∀ occs : List (Nat × List ParsedGlyph),
    (∀ kl ∈ occs, kl.1 ≠ cp) →
    (occs.filterMap emitDup).countP
      (fun e => e.message == VMessage.duplicateCodepoint cp) = 0 := by
  intro occs
  induction occs with
  | nil => intro _; rfl
  | cons kl1 rest ih =>
      intro hno
      rw [List.filterMap_cons]
      have hrest := ih (fun kl h => hno kl (List.mem_cons_of_mem _ h))
      by_cases h : 2 ≤ kl1.2.length
      · rw [show emitDup kl1 = some ⟨String.intercalate ", "
          (kl1.2.map (fun g => g.filePath)), .duplicateCodepoint kl1.1⟩ from by
            unfold emitDup; rw [if_pos h]]
        rw [List.countP_cons, hrest]
        have hb : ((VMessage.duplicateCodepoint kl1.1 ==
            VMessage.duplicateCodepoint cp) = false) := by
          rw [beq_eq_false_iff_ne]
          intro he
          apply hno kl1 (List.mem_cons_self _ _)
          cases he
          rfl
        simp [hb]
      · rw [show emitDup kl1 = none from by unfold emitDup; rw [if_neg h]]
        exact hrest

theorem dupErrCount_one (cp : Nat) : ∀ occs : List (Nat × List ParsedGlyph),
    occs.Pairwise (fun a b => a.1 ≠ b.1) →
    ∀ kl0 ∈ occs, kl0.1 = cp → 2 ≤ kl0.2.length →
    ((occs.filterMap emitDup).countP
        (fun e => e.message == VMessage.duplicateCodepoint cp) = 1
      ∧ ∃ e ∈ occs.filterMap emitDup, e.message = .duplicateCodepoint cp
          ∧ e.file = String.intercalate ", " (kl0.2.map (fun g => g.filePath))) := by
  intro occs
  induction occs with
  | nil => intro _ kl0 h; simp at h
  | cons kl1 rest ih =>
      intro hpw kl0 hm hcp hlen
      rw [List.pairwise_cons] at hpw
      rcases List.mem_cons.mp hm with h0 | h0
      · subst h0
        rw [List.filterMap_cons]
        rw [show emitDup kl0 = some ⟨String.intercalate ", "
          (kl0.2.map (fun g => g.filePath)), .duplicateCodepoint kl0.1⟩ from by
            unfold emitDup; rw [if_pos hlen]]
        have hzero := dupErrCount_zero cp rest (fun kl h => by
          have := hpw.1 kl h
          rw [hcp] at this
          exact fun he => this he.symm)
        constructor
        · rw [List.countP_cons, hzero]
          have hb : ((VMessage.duplicateCodepoint kl0.1 ==
              VMessage.duplicateCodepoint cp) = true) := by
            rw [beq_iff_eq, hcp]
          simp [hb]
        · refine ⟨_, List.mem_cons_self _ _, ?_, rfl⟩
          rw [hcp]
      · have hne : kl1.1 ≠ cp := by
          have := hpw.1 kl0 h0
          rw [hcp] at this
          exact this
        obtain ⟨hcount, hex⟩ := ih hpw.2 kl0 h0 hcp hlen
        rw [List.filterMap_cons]
        by_cases h : 2 ≤ kl1.2.length
        · rw [show emitDup kl1 = some ⟨String.intercalate ", "
            (kl1.2.map (fun g => g.filePath)), .duplicateCodepoint kl1.1⟩ from by
              unfold emitDup; rw [if_pos h]]
          have hb : ((VMessage.duplicateCodepoint kl1.1 ==
              VMessage.duplicateCodepoint cp) = false) := by
            rw [beq_eq_false_iff_ne]
            intro he
            apply hne
            cases he
            rfl
          constructor
          · rw [List.countP_cons, hcount]
            simp [hb]
          · obtain ⟨e, hem, h1, h2⟩ := hex
            exact ⟨e, List.mem_cons_of_mem _ hem, h1, h2⟩
        · rw [show emitDup kl1 = none from by unfold emitDup; rw [if_neg h]]
          exact ⟨hcount, hex⟩

theorem glyphErrors_not_dup (cfg : FontConfig) (rf : String → List String)
    (g : ParsedGlyph) (e : ValidationError) (he : e ∈ glyphErrors cfg rf g)
    (c : Nat) : e.message ≠ .duplicateCodepoint c := by
  intro hm
  rcases (glyphErrors_cases cfg rf g e he).2 with ⟨h, _⟩ | ⟨h, _⟩ | ⟨a, b, h⟩
    | ⟨a, b, h⟩ | ⟨cp, h⟩ | ⟨cp, h⟩ <;> (rw [hm] at h; cases h)

theorem validateGlyphs_duplicate_single_error (glyphs : List ParsedGlyph)
    (cfg : FontConfig) (rf : String → List String) (cp : Nat)
    (hdup : 2 ≤ (glyphs.filter (fun g => g.header.codepoint == some cp)).length) :
    (validateGlyphs glyphs cfg rf).countP
        (fun e => e.message == VMessage.duplicateCodepoint cp) = 1
    ∧ ∃ e ∈ validateGlyphs glyphs cfg rf,
        e.message = .duplicateCodepoint cp
        ∧ e.file = String.intercalate ", "
            ((glyphs.filter (fun g => g.header.codepoint == some cp)).map
              (fun g => g.filePath)) := by
  have hlook : occLookup (buildOccurrences glyphs) cp =
      glyphs.filter (fun g => g.header.codepoint == some cp) := by
    rw [buildOccurrences, occLookup_buildOccAux]
    rfl
  have hne : occLookup (buildOccurrences glyphs) cp ≠ [] := by
    rw [hlook]
    intro h
    rw [h] at hdup
    simp at hdup
  obtain ⟨kl, hklm, hk1, hk2⟩ := occLookup_mem (buildOccurrences glyphs) cp hne
  have hkd : (buildOccurrences glyphs).Pairwise (fun a b => a.1 ≠ b.1) :=
    buildOccAux_keys_distinct glyphs [] (by simp)
  have hklen : 2 ≤ kl.2.length := by
    rw [hk2, hlook]
    exact hdup
  obtain ⟨hcount, hex⟩ :=
    dupErrCount_one cp (buildOccurrences glyphs) hkd kl hklm hk1 hklen
  have hz1 : ((glyphs.map (glyphErrors cfg rf)).flatten).countP
      (fun e => e.message == VMessage.duplicateCodepoint cp) = 0 := by
    rw [List.countP_eq_zero]
    intro e he hp
    rw [List.mem_flatten] at he
    obtain ⟨l, hl, hel⟩ := he
    obtain ⟨g2, _, rfl⟩ := List.mem_map.mp hl
    exact glyphErrors_not_dup cfg rf g2 e hel cp (beq_iff_eq.mp hp)
  have hz3 : (missingAsciiErrors glyphs).countP
      (fun e => e.message == VMessage.duplicateCodepoint cp) = 0 := by
    rw [List.countP_eq_zero]
    intro e he hp
    obtain ⟨c2, hm⟩ := missingAsciiErrors_message glyphs e he
    rw [beq_iff_eq.mp hp] at hm
    cases hm
  constructor
  · unfold validateGlyphs
    rw [List.countP_append, List.countP_append, hz1, hz3,
      duplicateErrors_eq, hcount]
  · obtain ⟨e, hem, h1, h2⟩ := hex
    refine ⟨e, ?_, h1, ?_⟩
    · unfold validateGlyphs
      refine List.mem_append.mpr (Or.inl (List.mem_append.mpr (Or.inr ?_)))
      rw [duplicateErrors_eq]
      exact hem
    · rw [h2, hk2, hlook]

theorem validateGlyphs_duplicate_single_error_witness :
    2 ≤ (pgsW8.filter (fun g => g.header.codepoint == some 65)).length
    ∧ ((validateGlyphs pgsW8 cfgW (fun _ => [])).countP
        (fun e => e.message == VMessage.duplicateCodepoint 65) = 1
      ∧ ∃ e ∈ validateGlyphs pgsW8 cfgW (fun _ => []),
          e.message = .duplicateCodepoint 65
          ∧ e.file = String.intercalate ", "
              ((pgsW8.filter (fun g => g.header.codepoint == some 65)).map
                (fun g => g.filePath))) :=
  ⟨by decide, validateGlyphs_duplicate_single_error pgsW8 cfgW (fun _ => []) 65
    (by decide)⟩

theorem string_isEmpty_iff_toList (s : String) :
    s.isEmpty = true ↔ s.toList = [] := by
  rw [String.isEmpty_iff]
  constructor
  · intro h; rw [h]; rfl
  · intro h
    exact String.ext (by simpa [String.toList] using h)

theorem parseGrid_silent_coercion_cex :
    parseGrid ["Z"] = [[false]] ∧ parseGrid ["."] = [[false]] := by
  constructor
  · rfl
  · rfl

theorem parseGrid_total_validator_catches :
    (∀ gridLines : List String,
      (parseGrid gridLines).length = gridLines.length
      ∧ ∀ r c, (((parseGrid gridLines).getD r []).getD c false = true ↔
          ((gridLines.getD r "").toList.getD c ' ') = 'X'))
    ∧ (∀ line : String, validGridLine line = true ↔
        (line.toList ≠ [] ∧ ∀ ch ∈ line.toList, ch = '.' ∨ ch = 'X')) := by
  constructor
  · intro gridLines
    constructor
    · unfold parseGrid
      exact List.length_map _ _
    · intro r c
      by_cases hr : r < gridLines.length
      · have hr2 : r < (parseGrid gridLines).length := by
          unfold parseGrid
          rw [List.length_map]
          exact hr
        have hrow : (parseGrid gridLines).getD r [] =
            (gridLines[r].toList.map (fun ch => ch == 'X')) := by
          rw [listGetD_lt _ r _ hr2]
          unfold parseGrid
          rw [List.getElem_map]
        rw [hrow, listGetD_lt gridLines r "" hr]
        by_cases hc : c < gridLines[r].toList.length
        · have hc2 : c < (gridLines[r].toList.map (fun ch => ch == 'X')).length := by
            rw [List.length_map]
            exact hc
          rw [listGetD_lt _ c _ hc2, List.getElem_map,
            listGetD_lt _ c _ hc]
          exact beq_iff_eq
        · have hd1 : (gridLines[r].toList.map (fun ch => ch == 'X')).getD c false
              = false := List.getD_eq_default _ _ (by rw [List.length_map]; omega)
          have hd2 : gridLines[r].toList.getD c ' ' = ' ' :=
            List.getD_eq_default _ _ (by omega)
          rw [hd1, hd2]
          constructor
          · intro h; cases h
          · intro h; cases h
      · have hd1 : (parseGrid gridLines).getD r [] = [] :=
          List.getD_eq_default _ _ (by unfold parseGrid; rw [List.length_map]; omega)
        have hd2 : gridLines.getD r "" = "" :=
          List.getD_eq_default _ _ (by omega)
        rw [hd1, hd2]
        constructor
        · intro h; cases h
        · intro h; cases h
  · intro line
    unfold validGridLine
    rw [Bool.and_eq_true, Bool.not_eq_true']
    constructor
    · rintro ⟨h1, h2⟩
      refine ⟨?_, ?_⟩
      · intro he
        rw [(string_isEmpty_iff_toList line).mpr he] at h1
        cases h1
      · intro ch hch
        have hall := List.all_eq_true.mp h2 ch hch
        simp only [Bool.or_eq_true, beq_iff_eq] at hall
        exact hall
    · rintro ⟨h1, h2⟩
      refine ⟨?_, ?_⟩
      · cases hie : line.isEmpty
        · rfl
        · exact absurd ((string_isEmpty_iff_toList line).mp hie) h1
      · rw [List.all_eq_true]
        intro ch hch
        simp only [Bool.or_eq_true, beq_iff_eq]
        exact h2 ch hch
